import Mathlib

/-!
Verification development for the ThisAmericanScraper-JSON repository.

The repository has four Python scripts:
  * script/generateFeed.py  - renders data.json into an RSS feed (feed.xml);
  * script/scrape.py        - scrapes episodes, merges them into data.json and
                              backfills publish dates from the official RSS feed;
  * script/normalize_dates.py - rewrites dates in data.json into RFC-822 form;
  * script/markdown.py      - renders data.json into a markdown table.

This file gives a shallow embedding of the date handling, the feed rendering,
the markdown rendering and the merge/backfill pipeline of those scripts, and
proves or refutes the specification claims about them.

Python `datetime` values are modelled by the structure `DT` below; all parsed
values are converted to UTC exactly where the scripts do so, so a `DT` denotes
an instant.  Python's `sorted` is a stable sort; it is modelled by the stable
insertion sort `isort`, which agrees extensionally with every stable sort using
the same (total, transitive) boolean key order.
-/

/-! ## Calendar arithmetic -/

/-- Gregorian leap-year test, as validated by Python `datetime`. -/
def isLeap (y : Int) : Bool := y % 4 == 0 && (y % 100 != 0 || y % 400 == 0)

/-- Length of a month, as validated by Python `datetime`. -/
def daysInMonth (y m : Int) : Int :=
  if m = 2 then (if isLeap y then 29 else 28)
  else if m = 4 ∨ m = 6 ∨ m = 9 ∨ m = 11 then 30
  else 31

/-- Day count from 1970-01-01 (Gregorian, proleptic); standard civil-from-days
inverse pair.  Only evaluated on validated dates (year ≥ 1), where Lean's
Euclidean `/` agrees with the usual truncating division. -/
def toDays (y m d : Int) : Int :=
  let y1 := if m ≤ 2 then y - 1 else y
  let era := (if 0 ≤ y1 then y1 else y1 - 399) / 400
  let yoe := y1 - era * 400
  let mp := (m + 9) % 12
  let doy := (153 * mp + 2) / 5 + d - 1
  let doe := yoe * 365 + yoe / 4 - yoe / 100 + doy
  era * 146097 + doe - 719468

/-- Inverse of `toDays`: civil date from a 1970-01-01 based day count. -/
def ofDays (z0 : Int) : Int × Int × Int :=
  let z := z0 + 719468
  let era := (if 0 ≤ z then z else z - 146096) / 146097
  let doe := z - era * 146097
  let yoe := (doe - doe / 1460 + doe / 36524 - doe / 146096) / 365
  let y := yoe + era * 400
  let doy := doe - (365 * yoe + yoe / 4 - yoe / 100)
  let mp := (5 * doy + 2) / 153
  let d := doy - (153 * mp + 2) / 5 + 1
  let m := if mp < 10 then mp + 3 else mp - 9
  (if m ≤ 2 then y + 1 else y, m, d)

/-! ## The datetime model -/

/-- A Python `datetime` value.  Every `DT` handled by the embedded scripts is
either naive (interpreted as UTC, as the scripts do via `replace(tzinfo=utc)`)
or has already been converted to UTC, so a `DT` denotes an instant. -/
structure DT where
  y : Int
  m : Int
  d : Int
  hh : Int
  mi : Int
  ss : Int
deriving DecidableEq

/-- Field validity enforced by the Python `datetime` constructor
(`MINYEAR = 1`, `MAXYEAR = 9999`). -/
def DT.Valid (t : DT) : Prop :=
  1 ≤ t.y ∧ t.y ≤ 9999 ∧ 1 ≤ t.m ∧ t.m ≤ 12 ∧ 1 ≤ t.d ∧ t.d ≤ daysInMonth t.y t.m ∧
  0 ≤ t.hh ∧ t.hh ≤ 23 ∧ 0 ≤ t.mi ∧ t.mi ≤ 59 ∧ 0 ≤ t.ss ∧ t.ss ≤ 59

instance (t : DT) : Decidable t.Valid := by unfold DT.Valid; infer_instance

/-- Smart constructor: `datetime(...)` raises `ValueError` on invalid fields. -/
def mkDT (y m d hh mi ss : Int) : Option DT :=
  if DT.Valid ⟨y, m, d, hh, mi, ss⟩ then some ⟨y, m, d, hh, mi, ss⟩ else none

/-- Linearisation of a `DT`.  The multipliers strictly dominate the ranges of
valid fields, so on valid values the induced order coincides with Python's
field-lexicographic `datetime` comparison, i.e. with instant order for UTC
values. -/
def DT.key (t : DT) : Int :=
  ((((t.y * 13 + t.m) * 32 + t.d) * 24 + t.hh) * 60 + t.mi) * 60 + t.ss

/-- Comparison `a <= b` on datetimes. -/
def DT.leB (a b : DT) : Bool := decide (a.key ≤ b.key)

/-- Comparison `a < b` on datetimes. -/
def DT.ltB (a b : DT) : Bool := decide (a.key < b.key)

/-- Python `max` over a nonempty collection: keep the current value unless a
strictly larger one appears. -/
def maxDT (x : DT) (xs : List DT) : DT :=
  xs.foldl (fun acc t => if acc.ltB t then t else acc) x

/-! ## Character helpers (Python `re` / `strptime` building blocks) -/

/-- ASCII whitespace recognised by Python's `str.strip` and by `\s` in the
`strptime` machinery. -/
def isWs (c : Char) : Bool :=
  c = ' ' || c = '\t' || c = '\n' || c = '\r' || c.toNat = 11 || c.toNat = 12

def isDigitCh (c : Char) : Bool := 48 ≤ c.toNat && c.toNat ≤ 57

def digVal (c : Char) : Nat := c.toNat - 48

def isAlphaCh (c : Char) : Bool :=
  (65 ≤ c.toNat && c.toNat ≤ 90) || (97 ≤ c.toNat && c.toNat ≤ 122)

def lowerCh (c : Char) : Char :=
  if 65 ≤ c.toNat ∧ c.toNat ≤ 90 then Char.ofNat (c.toNat + 32) else c

/-- Drop leading whitespace. -/
def dropWs : List Char → List Char
  | [] => []
  | c :: cs => if isWs c then dropWs cs else c :: cs

/-- Python `str.strip()`. -/
def pyStrip (cs : List Char) : List Char :=
  ((dropWs ((dropWs cs).reverse)).reverse)

/-- Require at least one whitespace character and skip the whole run
(a space in a `strptime` format matches `\s+`). -/
def skipWs : List Char → Option (List Char)
  | [] => none
  | c :: cs => if isWs c then some (dropWs cs) else none

def expectChar (c : Char) : List Char → Option (List Char)
  | [] => none
  | x :: xs => if x = c then some xs else none

/-- Greedy digit run of length at most `mx`: value, count, rest. -/
def readDigitsAux : Nat → List Char → Nat → Nat → Nat × Nat × List Char
  | 0, cs, v, k => (v, k, cs)
  | _ + 1, [], v, k => (v, k, [])
  | mx + 1, c :: cs, v, k =>
    if isDigitCh c then readDigitsAux mx cs (v * 10 + digVal c) (k + 1)
    else (v, k, c :: cs)

/-- Greedy run of `mn` to `mx` digits, like the `\d{mn,mx}` fragments in the
`strptime` regexes (every use here is followed by a non-digit, so greediness
agrees with regex backtracking). -/
def readDigits (mn mx : Nat) (cs : List Char) : Option (Nat × List Char) :=
  match readDigitsAux mx cs 0 0 with
  | (v, k, rest) => if mn ≤ k then some (v, rest) else none

/-- Case-insensitive name-table match (the `strptime` regexes are compiled with
`IGNORECASE`); returns the 1-based index of the first matching name. -/
def stripCI : List Char → List Char → Option (List Char)
  | [], cs => some cs
  | _ :: _, [] => none
  | p :: ps, c :: cs => if lowerCh c = lowerCh p then stripCI ps cs else none

def matchNameAux (i : Nat) : List String → List Char → Option (Nat × List Char)
  | [], _ => none
  | n :: ns, cs =>
    match stripCI n.data cs with
    | some rest => some (i, rest)
    | none => matchNameAux (i + 1) ns cs

def matchNameCI (names : List String) (cs : List Char) : Option (Nat × List Char) :=
  matchNameAux 1 names cs

def monthsFull : List String :=
  ["January", "February", "March", "April", "May", "June", "July", "August",
   "September", "October", "November", "December"]

def monthsAbbr : List String :=
  ["Jan", "Feb", "Mar", "Apr", "May", "Jun", "Jul", "Aug", "Sep", "Oct", "Nov", "Dec"]

def weekdaysAbbr : List String := ["Mon", "Tue", "Wed", "Thu", "Fri", "Sat", "Sun"]

/-- The `%z` directive: `+HHMM`, `-HHMM`, optionally with a colon, or `Z`;
the resulting offset must be a legal `timezone` offset (within a day). -/
def parseTz : List Char → Option (Int × List Char)
  | [] => none
  | c :: rest =>
    if c = 'Z' then some (0, rest)
    else if c = '+' ∨ c = '-' then
      match readDigits 2 2 rest with
      | none => none
      | some (h2, r1) =>
        let cont := fun (r : List Char) =>
          match readDigits 2 2 r with
          | none => none
          | some (m2, r2) =>
            let total : Int := (h2 : Int) * 60 + (m2 : Int)
            if total ≤ 1439 then
              some ((if c = '-' then -total else total), r2)
            else none
        match r1 with
        | ':' :: r2 => cont r2
        | _ => cont r1
    else none

/-! ## The individual `strptime` patterns used by the scripts -/

/-- Model of `astimezone(timezone.utc)` on an aware value: shift the civil fields by the
negated offset.  Out-of-range results are `none` (Python raises there). -/
def shiftToUTC (t : DT) (offMin : Int) : Option DT :=
  if offMin = 0 then some t
  else
    let total := t.hh * 60 + t.mi - offMin
    let dayShift := Int.fdiv total 1440
    let rem := total - dayShift * 1440
    let days := toDays t.y t.m t.d + dayShift
    match ofDays days with
    | (y, m, d) => mkDT y m d (rem / 60) (rem % 60) t.ss

/-- Model of `strptime(s, "%Y-%m-%d")`. -/
def pIso (cs : List Char) : Option DT := do
  let (y, r1) ← readDigits 4 4 cs
  let r2 ← expectChar '-' r1
  let (m, r3) ← readDigits 1 2 r2
  let r4 ← expectChar '-' r3
  let (d, r5) ← readDigits 1 2 r4
  if r5 = [] then mkDT (y : Int) (m : Int) (d : Int) 0 0 0 else none

/-- Model of `strptime(s, "%B %d, %Y")`. -/
def pBdY (cs : List Char) : Option DT := do
  let (m, r1) ← matchNameCI monthsFull cs
  let r2 ← skipWs r1
  let (d, r3) ← readDigits 1 2 r2
  let r4 ← expectChar ',' r3
  let r5 ← skipWs r4
  let (y, r6) ← readDigits 4 4 r5
  if r6 = [] then mkDT (y : Int) (m : Int) (d : Int) 0 0 0 else none

/-- Model of `strptime(s, "%b %d, %Y")`. -/
def pbdY (cs : List Char) : Option DT := do
  let (m, r1) ← matchNameCI monthsAbbr cs
  let r2 ← skipWs r1
  let (d, r3) ← readDigits 1 2 r2
  let r4 ← expectChar ',' r3
  let r5 ← skipWs r4
  let (y, r6) ← readDigits 4 4 r5
  if r6 = [] then mkDT (y : Int) (m : Int) (d : Int) 0 0 0 else none

/-- The `"%a, %d %b %Y"` front shared by the two RFC-822 style patterns:
weekday name (validated but otherwise ignored, as `strptime` does), day,
abbreviated month, year. -/
def pWdDMY (cs : List Char) : Option (Nat × Nat × Nat × List Char) :=
  match matchNameCI weekdaysAbbr cs with
  | none => none
  | some (_, r1) =>
    match expectChar ',' r1 with
    | none => none
    | some r2 =>
      match skipWs r2 with
      | none => none
      | some r3 =>
        match readDigits 1 2 r3 with
        | none => none
        | some (d, r4) =>
          match skipWs r4 with
          | none => none
          | some r5 =>
            match matchNameCI monthsAbbr r5 with
            | none => none
            | some (m, r6) =>
              match skipWs r6 with
              | none => none
              | some r7 =>
                match readDigits 4 4 r7 with
                | none => none
                | some (y, r8) => some (d, m, y, r8)

/-- The `"%H:%M:%S"` fragment. -/
def pHMS (cs : List Char) : Option (Nat × Nat × Nat × List Char) :=
  match readDigits 1 2 cs with
  | none => none
  | some (hh, r1) =>
    match expectChar ':' r1 with
    | none => none
    | some r2 =>
      match readDigits 1 2 r2 with
      | none => none
      | some (mi, r3) =>
        match expectChar ':' r3 with
        | none => none
        | some r4 =>
          match readDigits 1 2 r4 with
          | none => none
          | some (ss, r5) => some (hh, mi, ss, r5)

/-- Model of `strptime(s, "%a, %d %b %Y %H:%M:%S %z")`, before timezone conversion:
naive fields plus the parsed offset in minutes. -/
def pRfcRaw (cs : List Char) : Option (DT × Int) :=
  match pWdDMY cs with
  | none => none
  | some (d, m, y, r8) =>
    match skipWs r8 with
    | none => none
    | some r9 =>
      match pHMS r9 with
      | none => none
      | some (hh, mi, ss, r14) =>
        match skipWs r14 with
        | none => none
        | some r15 =>
          match parseTz r15 with
          | none => none
          | some (off, r16) =>
            if r16 = [] then
              match mkDT (y : Int) (m : Int) (d : Int) (hh : Int) (mi : Int) (ss : Int) with
              | some t => some (t, off)
              | none => none
            else none

/-- Model of `strptime(s, "%a, %d %b %Y %H:%M:%S %z").astimezone(timezone.utc)`. -/
def pRfc (cs : List Char) : Option DT :=
  match pRfcRaw cs with
  | some (t, off) => shiftToUTC t off
  | none => none

/-- Model of `strptime(s, "%a, %d %b %Y %H:%M:%S")` (no offset; naive result). -/
def pRfcNoTz (cs : List Char) : Option DT :=
  match pWdDMY cs with
  | none => none
  | some (d, m, y, r8) =>
    match skipWs r8 with
    | none => none
    | some r9 =>
      match pHMS r9 with
      | none => none
      | some (hh, mi, ss, r14) =>
        if r14 = [] then mkDT (y : Int) (m : Int) (d : Int) (hh : Int) (mi : Int) (ss : Int)
        else none

/-- generateFeed.py lines 24-28: `re.match(r"([A-Za-z]+) (\d{1,2}), (\d{4})", s)`
followed by `strptime(f"{month} {day} {year}", "%B %d %Y")`.  `re.match` only
anchors at the start, so trailing input after the year is ignored; the letter
group must then be exactly a full month name. -/
def pGfMonth (cs : List Char) : Option DT :=
  match cs.span isAlphaCh with
  | (letters, r1) =>
    if letters = [] then none
    else
      match expectChar ' ' r1 with
      | none => none
      | some r2 =>
        match readDigits 1 2 r2 with
        | none => none
        | some (d, r3) =>
          match expectChar ',' r3 with
          | none => none
          | some r4 =>
            match expectChar ' ' r4 with
            | none => none
            | some r5 =>
              match readDigits 4 4 r5 with
              | none => none
              | some (y, _) =>
                match matchNameCI monthsFull letters with
                | some (m, []) => mkDT (y : Int) (m : Int) (d : Int) 0 0 0
                | _ => none

/-! ## The three date-parsing functions of the repository -/

/-- generateFeed.py `parse_any_date` (lines 10-29): strip, then RFC-822,
then ISO `YYYY-MM-DD`, then the month-name regex; `none` models the final
`raise ValueError`. -/
def gfParse (s : String) : Option DT :=
  let cs := pyStrip s.data
  match pRfc cs with
  | some t => some t
  | none =>
    match pIso cs with
    | some t => some t
    | none => pGfMonth cs

/-- Model of `replace(hour=0, minute=0, second=0, microsecond=0)`. -/
def truncMidnight (t : DT) : DT := { t with hh := 0, mi := 0, ss := 0 }

/-- scrape.py `parse_any_date` (lines 22-37): ISO first, then RFC-822, then
`"%B %d, %Y"`; the result is converted to UTC and truncated to midnight. -/
def scParse (s : String) : Option DT :=
  match pIso s.data with
  | some t => some (truncMidnight t)
  | none =>
    match pRfc s.data with
    | some t => some (truncMidnight t)
    | none =>
      match pBdY s.data with
      | some t => some (truncMidnight t)
      | none => none

/-- normalize_dates.py `parse_date` (lines 4-10): ISO, then `"%B %d, %Y"`,
then `"%b %d, %Y"`; returns `None` (not an error) when nothing matches. -/
def ndParse (s : String) : Option DT :=
  match pIso s.data with
  | some t => some t
  | none =>
    match pBdY s.data with
    | some t => some t
    | none => pbdY s.data

/-! ## Rendering (`strftime`) -/

def digitChar (n : Nat) : Char := Char.ofNat (48 + n)

/-- Two-digit zero-padded decimal, as `%m`/`%d`/`%H`/`%M`/`%S` render the
(validated, hence in-range) `datetime` fields. -/
def pad2 (n : Int) : String :=
  ⟨[digitChar ((n.toNat / 10) % 10), digitChar (n.toNat % 10)]⟩

/-- Four-digit zero-padded decimal, as `%Y` renders a validated year. -/
def pad4 (n : Int) : String :=
  ⟨[digitChar ((n.toNat / 1000) % 10), digitChar ((n.toNat / 100) % 10),
    digitChar ((n.toNat / 10) % 10), digitChar (n.toNat % 10)]⟩

/-- The `%a` weekday abbreviation of a civil date (1970-01-01 was a Thursday). -/
def weekdayAbbrOf (y m d : Int) : String :=
  (["Sun", "Mon", "Tue", "Wed", "Thu", "Fri", "Sat"].getD
    ((toDays y m d + 4) % 7).toNat "")

/-- Model of `strftime("%Y-%m-%d")`. -/
def fmtISO (t : DT) : String := pad4 t.y ++ "-" ++ pad2 t.m ++ "-" ++ pad2 t.d

/-- Model of `strftime("%Y%m%d")`. -/
def fmtYYYYMMDD (t : DT) : String := pad4 t.y ++ pad2 t.m ++ pad2 t.d

/-- Model of `strftime("%a, %d %b %Y %H:%M:%S %z")` of a UTC value (`%z` = `+0000`);
also the hard-coded `"... +0000"` variant in normalize_dates.py. -/
def fmtRfc822 (t : DT) : String :=
  weekdayAbbrOf t.y t.m t.d ++ ", " ++ pad2 t.d ++ " " ++
  (monthsAbbr.getD (t.m.toNat - 1) "") ++ " " ++ pad4 t.y ++ " " ++
  pad2 t.hh ++ ":" ++ pad2 t.mi ++ ":" ++ pad2 t.ss ++ " +0000"

/-- generateFeed.py / scrape.py `format_rfc822`. -/
def format_rfc822 (t : DT) : String := fmtRfc822 t

/-- normalize_dates.py `to_rfc822` (naive values are treated as UTC, the
behaviour of `astimezone` under a UTC system zone). -/
def to_rfc822 (dt : Option DT) : Option String := dt.map fmtRfc822

/-! ## A stable sort modelling Python `sorted` / `list.sort`

Python's sort is stable; a stable sort by a total, transitive boolean
"comes-not-after" relation is extensionally unique, so the straightforward
stable insertion sort below agrees with it.  `sorted(xs, key=k)` is
`isort (fun a b => k a ≤ k b) xs`, and `reverse=True` flips the key
comparison (Python keeps ties in original order in both directions, as
`insertLe` does). -/

def insertLe (le : α → α → Bool) (x : α) : List α → List α
  | [] => [x]
  | y :: ys => if le x y then x :: y :: ys else y :: insertLe le x ys

def isort (le : α → α → Bool) : List α → List α
  | [] => []
  | x :: xs => insertLe le x (isort le xs)

theorem insertLe_perm (le : α → α → Bool) (x : α) (l : List α) :
    List.Perm (insertLe le x l) (x :: l) := by
  induction l with
  | nil => exact List.Perm.refl _
  | cons y ys ih =>
    unfold insertLe
    split
    · exact List.Perm.refl _
    · exact (ih.cons y).trans (List.Perm.swap x y ys)

theorem isort_perm (le : α → α → Bool) (l : List α) : List.Perm (isort le l) l := by
  induction l with
  | nil => exact List.Perm.refl _
  | cons x xs ih => exact (insertLe_perm le x (isort le xs)).trans (ih.cons x)

theorem mem_insertLe {le : α → α → Bool} {x a : α} {l : List α} :
    a ∈ insertLe le x l ↔ a = x ∨ a ∈ l := by
  have h := (insertLe_perm le x l).mem_iff (a := a)
  simpa using h

theorem insertLe_pairwise {le : α → α → Bool}
    (htr : ∀ a b c, le a b = true → le b c = true → le a c = true)
    (hto : ∀ a b, le a b = false → le b a = true)
    {x : α} {l : List α} (hs : l.Pairwise (fun a b => le a b = true)) :
    (insertLe le x l).Pairwise (fun a b => le a b = true) := by
  induction l with
  | nil => simp [insertLe]
  | cons y ys ih =>
    unfold insertLe
    split
    · rename_i hxy
      refine List.Pairwise.cons ?_ hs
      intro z hz
      rcases List.mem_cons.mp hz with hz | hz
      · exact hz ▸ hxy
      · exact htr x y z hxy ((List.pairwise_cons.mp hs).1 z hz)
    · rename_i hxy
      refine List.Pairwise.cons ?_ (ih (List.pairwise_cons.mp hs).2)
      intro z hz
      rcases mem_insertLe.mp hz with hz | hz
      · rw [hz]
        exact hto x y (by simpa using hxy)
      · exact (List.pairwise_cons.mp hs).1 z hz

theorem isort_pairwise {le : α → α → Bool}
    (htr : ∀ a b c, le a b = true → le b c = true → le a c = true)
    (hto : ∀ a b, le a b = false → le b a = true) (l : List α) :
    (isort le l).Pairwise (fun a b => le a b = true) := by
  induction l with
  | nil => simp [isort]
  | cons x xs ih => exact insertLe_pairwise htr hto ih

theorem isort_of_sorted {le : α → α → Bool} {l : List α}
    (hs : l.Pairwise (fun a b => le a b = true)) : isort le l = l := by
  induction l with
  | nil => rfl
  | cons x xs ih =>
    have hx := (List.pairwise_cons.mp hs).1
    have htail := (List.pairwise_cons.mp hs).2
    show insertLe le x (isort le xs) = x :: xs
    rw [ih htail]
    cases xs with
    | nil => rfl
    | cons y ys =>
      show insertLe le x (y :: ys) = x :: y :: ys
      unfold insertLe
      rw [if_pos (hx y (by simp))]

/-! ## Option-valued `map` over a list (Python: a loop that can raise) -/

def mapO (f : α → Option β) : List α → Option (List β)
  | [] => some []
  | x :: xs =>
    match f x, mapO f xs with
    | some y, some ys => some (y :: ys)
    | _, _ => none

theorem mapO_eq_some_iff {f : α → Option β} {l : List α} {ys : List β} :
    mapO f l = some ys ↔ List.Forall₂ (fun x y => f x = some y) l ys := by
  induction l generalizing ys with
  | nil =>
    cases ys <;> simp [mapO]
  | cons x xs ih =>
    cases ys with
    | nil =>
      simp only [mapO, List.forall₂_cons_left_iff]
      constructor
      · intro h
        cases hfx : f x <;> cases hrest : mapO f xs <;>
          simp [hfx, hrest] at h
      · intro h
        simp at h
    | cons y ys' =>
      simp only [mapO, List.forall₂_cons]
      constructor
      · intro h
        cases hfx : f x <;> cases hrest : mapO f xs <;> simp [hfx, hrest] at h ⊢
        exact ⟨h.1.symm ▸ rfl, ih.mp (h.2 ▸ hrest)⟩
      · intro ⟨h1, h2⟩
        rw [h1, ih.mpr h2]

theorem mapO_some_of_forall {f : α → Option β} {l : List α}
    (h : ∀ x ∈ l, ∃ y, f x = some y) : ∃ ys, mapO f l = some ys := by
  induction l with
  | nil => exact ⟨[], rfl⟩
  | cons x xs ih =>
    obtain ⟨y, hy⟩ := h x (by simp)
    obtain ⟨ys, hys⟩ := ih (fun z hz => h z (by simp [hz]))
    exact ⟨y :: ys, by simp [mapO, hy, hys]⟩

theorem mapO_map_fst {f : α → Option β} {ps : List (α × β)}
    (h : ∀ p ∈ ps, f p.1 = some p.2) :
    mapO f (ps.map Prod.fst) = some (ps.map Prod.snd) := by
  induction ps with
  | nil => rfl
  | cons p ps ih =>
    simp only [List.map_cons, mapO, h p (by simp), ih (fun q hq => h q (by simp [hq]))]

theorem zip_forall_of_mapO {f : α → Option β} {l : List α} {ks : List β}
    (h : mapO f l = some ks) : ∀ p ∈ l.zip ks, f p.1 = some p.2 := by
  induction l generalizing ks with
  | nil => simp
  | cons x xs ih =>
    cases ks with
    | nil => simp
    | cons k ks' =>
      intro p hp
      have h' := mapO_eq_some_iff.mp h
      rcases List.forall₂_cons.mp h' with ⟨h1, h2⟩
      rcases List.mem_cons.mp hp with hp | hp
      · rw [hp]
        simpa using h1
      · exact ih (mapO_eq_some_iff.mpr h2) p hp

theorem zip_map_fst_snd_self (ps : List (α × β)) :
    (ps.map Prod.fst).zip (ps.map Prod.snd) = ps := by
  induction ps with
  | nil => rfl
  | cons p ps ih => simp [ih]

/-! ## Order facts for the sort relations used by the scripts -/

theorem DT.leB_trans {a b c : DT} (h1 : a.leB b = true) (h2 : b.leB c = true) :
    a.leB c = true := by
  simp only [DT.leB, decide_eq_true_eq] at h1 h2 ⊢
  omega

theorem DT.leB_total (a b : DT) : a.leB b = false → b.leB a = true := by
  simp only [DT.leB, decide_eq_true_eq, decide_eq_false_iff_not]
  omega

/-- Python string `<`: code-point lexicographic comparison. -/
def listLtB : List Char → List Char → Bool
  | [], [] => false
  | [], _ :: _ => true
  | _ :: _, [] => false
  | c :: cs, d :: ds =>
    if c.toNat < d.toNat then true
    else if c.toNat = d.toNat then listLtB cs ds else false

theorem listLtB_irrefl (l : List Char) : listLtB l l = false := by
  induction l with
  | nil => rfl
  | cons c cs ih => simp [listLtB, ih]

theorem listLtB_linear {x z : List Char} (h : listLtB x z = true) :
    ∀ y, listLtB x y = true ∨ listLtB y z = true := by
  induction x generalizing z with
  | nil =>
    cases z with
    | nil => simp [listLtB] at h
    | cons a as =>
      intro y
      cases y with
      | nil => exact Or.inr (by simp [listLtB])
      | cons b bs => exact Or.inl (by simp [listLtB])
  | cons c cs ih =>
    cases z with
    | nil => simp [listLtB] at h
    | cons a as =>
      intro y
      cases y with
      | nil => exact Or.inr (by simp [listLtB])
      | cons b bs =>
        simp only [listLtB] at h ⊢
        by_cases h1 : c.toNat < b.toNat
        · exact Or.inl (by simp [h1])
        · by_cases h2 : b.toNat < a.toNat
          · exact Or.inr (by simp [h2])
          · by_cases h3 : c.toNat = b.toNat
            · by_cases h4 : b.toNat = a.toNat
              · have h5 : listLtB cs as = true := by
                  rw [if_neg (by omega), if_pos (by omega)] at h
                  exact h
                rcases ih h5 bs with h6 | h6
                · exact Or.inl (by simp [h1, h3, h6])
                · exact Or.inr (by simp [h2, h4, h6])
              · rw [if_neg (by omega), if_neg (by omega)] at h
                simp at h
            · rw [if_neg (by omega), if_neg (by omega)] at h
              simp at h

/-- Python string comparison, packaged as the "comes-not-after" boolean used by
a stable sort: `a <= b` iff `not (b < a)`. -/
def strLeB (a b : String) : Bool := !(listLtB b.data a.data)

theorem strLeB_trans {a b c : String} (h1 : strLeB a b = true) (h2 : strLeB b c = true) :
    strLeB a c = true := by
  simp only [strLeB, Bool.not_eq_true', Bool.not_eq_false'] at h1 h2 ⊢
  by_contra hac
  have hac' : listLtB c.data a.data = true := by
    cases h : listLtB c.data a.data
    · exact absurd h hac
    · rfl
  rcases listLtB_linear hac' b.data with h3 | h3
  · exact absurd h3 (by simp [h2])
  · exact absurd h3 (by simp [h1])

theorem listLtB_trans {x y z : List Char} (h1 : listLtB x y = true)
    (h2 : listLtB y z = true) : listLtB x z = true := by
  induction x generalizing y z with
  | nil =>
    cases y with
    | nil => simp [listLtB] at h1
    | cons b bs =>
      cases z with
      | nil => simp [listLtB] at h2
      | cons a as => simp [listLtB]
  | cons c cs ih =>
    cases y with
    | nil => simp [listLtB] at h1
    | cons b bs =>
      cases z with
      | nil => simp [listLtB] at h2
      | cons a as =>
        simp only [listLtB] at h1 h2 ⊢
        by_cases hcb : c.toNat < b.toNat
        · by_cases hba : b.toNat < a.toNat
          · rw [if_pos (by omega)]
          · by_cases hba' : b.toNat = a.toNat
            · rw [if_pos (by omega)]
            · rw [if_neg (by omega), if_neg (by omega)] at h2
              simp at h2
        · by_cases hcb' : c.toNat = b.toNat
          · rw [if_neg (by omega), if_pos (by omega)] at h1
            by_cases hba : b.toNat < a.toNat
            · rw [if_pos (by omega)]
            · by_cases hba' : b.toNat = a.toNat
              · rw [if_neg (by omega), if_pos (by omega)] at h2
                rw [if_neg (by omega), if_pos (by omega)]
                exact ih h1 h2
              · rw [if_neg (by omega), if_neg (by omega)] at h2
                simp at h2
          · rw [if_neg (by omega), if_neg (by omega)] at h1
            simp at h1

theorem strLeB_total (a b : String) : strLeB a b = false → strLeB b a = true := by
  simp only [strLeB, Bool.not_eq_false', Bool.not_eq_true']
  intro h
  by_contra hba
  have hba' : listLtB a.data b.data = true := by
    cases h' : listLtB a.data b.data
    · exact absurd h' hba
    · rfl
  have : listLtB a.data a.data = true := listLtB_trans hba' h
  rw [listLtB_irrefl] at this
  exact absurd this (by simp)

/-! ## The episode record model (the JSON objects of data.json) -/

/-- One act/segment, as produced by `scrape_episode` and consumed by the
renderers. -/
structure Act where
  number : Int
  number_text : String
  title : String
  summary : String
  duration : Option Int
  contributors : List String
deriving DecidableEq

structure EpImage where
  url : Option String
  credit : Option String
deriving DecidableEq

/-- One episode record.  Fields the scripts access with plain indexing are
plain; fields accessed with `.get` (which may be `None`) are `Option`s. -/
structure Episode where
  title : String
  number : String
  episode_url : String
  original_air_date : String
  explicit : Bool
  synopsis : String
  download : Option String
  download_clean : Option String
  image : Option EpImage
  acts : List Act
  published_dates : List String
deriving DecidableEq

/-- Python truthiness of an optional string (`None` and `""` are falsy). -/
def truthyS : Option String → Bool
  | none => false
  | some s => !(s == "")

/-- Python truthiness of an optional int (`None` and `0` are falsy). -/
def truthyI : Option Int → Bool
  | none => false
  | some n => !(n == 0)

/-- Python `str.zfill`: zero-pad on the left, keeping a leading sign first. -/
def zfill (w : Nat) (s : String) : String :=
  if w ≤ s.length then s
  else
    match s.data with
    | c :: cs =>
      if c = '+' ∨ c = '-' then ⟨c :: (List.replicate (w - s.length) '0' ++ cs)⟩
      else ⟨List.replicate (w - s.length) '0' ++ s.data⟩
    | [] => ⟨List.replicate w '0'⟩

/-- Python `str.strip()` on a `String`. -/
def pyStripS (s : String) : String := ⟨pyStrip s.data⟩

/-- Decimal rendering of a natural number (f-string interpolation). -/
def natDigsAux : Nat → Nat → List Char → List Char
  | 0, _, acc => acc
  | f + 1, n, acc =>
    if n < 10 then digitChar n :: acc
    else natDigsAux f (n / 10) (digitChar (n % 10) :: acc)

def natStr (n : Nat) : String := ⟨natDigsAux (n + 1) n []⟩

/-- Decimal rendering of an integer (f-string interpolation). -/
def intStr (n : Int) : String :=
  if n < 0 then "-" ++ natStr n.natAbs else natStr n.toNat

/-- String joining, as `", ".join` and friends. -/
def joinSep (sep : String) : List String → String
  | [] => ""
  | [x] => x
  | x :: y :: xs => x ++ sep ++ joinSep sep (y :: xs)

/-! ## generateFeed.py -/

/-- generateFeed.py lines 62-66: the latest publish instant; the default
`parse_any_date(ep["original_air_date"])` is evaluated eagerly (it aborts the
render even when `published_dates` is nonempty), and `max` of the parses is
taken when `published_dates` is nonempty. -/
def latestPub (ep : Episode) : Option DT :=
  match gfParse ep.original_air_date with
  | none => none
  | some dflt =>
    match mapO gfParse ep.published_dates with
    | none => none
    | some [] => some dflt
    | some (k :: ks) => some (maxDT k ks)

/-- generateFeed.py lines 34-36 `format_duration` (fields are in range for
every reachable total, so two-digit padding matches `f"{h:02}"`). -/
def format_duration (totalMinutes : Int) : String :=
  pad2 (totalMinutes / 60) ++ ":" ++ pad2 (totalMinutes % 60) ++ ":00"

/-- generateFeed.py lines 38-51 `build_description`, given the already parsed
air date (the source re-parses `ep["original_air_date"]`; `main` has parsed it
already, so the parse succeeds with the same value). -/
def descBody (ep : Episode) (orig : DT) : String :=
  let actLines := ep.acts.flatMap (fun act =>
    let summaryLine :=
      pyStripS act.summary ++
      (if truthyI act.duration then " (" ++ intStr (act.duration.getD 0) ++ " minutes)" else "") ++
      (if act.contributors ≠ [] then " by " ++ joinSep ", " act.contributors else "")
    [act.number_text, summaryLine, ""])
  joinSep "\n"
    ([("<a href=\"" ++ ep.episode_url ++ "\">" ++ ep.episode_url ++ "</a>"), "",
      pyStripS ep.synopsis, ""] ++ actLines ++ ["Originally Aired: " ++ fmtISO orig])

/-- generateFeed.py `build_description` as the source states it, re-parsing the
air date. -/
def build_description (ep : Episode) : Option String :=
  (gfParse ep.original_air_date).map (descBody ep)

/-- One rendered `<item>`: the structured content of the XML template of
generateFeed.py lines 79-114. -/
structure FeedItem where
  title : String
  link : String
  guid : String
  season : Int
  episodeNum : String
  explicitStr : String
  description : String
  pubDateStr : String
  enclosureUrl : String
  durationStr : String
  imageUrl : Option String
deriving DecidableEq

/-- generateFeed.py line 70: `" - Repeat" if latest.year != orig.year else ""`. -/
def repeatSuffix (latest orig : DT) : String :=
  if latest.y ≠ orig.y then " - Repeat" else ""

/-- generateFeed.py lines 74, 78, 98: the entry identifier
`ep["number"].zfill(4) + "-" + latest.strftime("%Y%m%d")`. -/
def guidOf (ep : Episode) (latest : DT) : String :=
  zfill 4 ep.number ++ "-" ++ fmtYYYYMMDD latest

/-- generateFeed.py line 73: total minutes over the acts (`None` counts 0). -/
def totalMinutes (ep : Episode) : Int :=
  ep.acts.foldl (fun acc a => acc + a.duration.getD 0) 0

/-- generateFeed.py lines 91-92, 111-112: the optional per-entry image URL. -/
def imageUrlOf (ep : Episode) : Option String :=
  match ep.image with
  | some img =>
    match img.url with
    | some u => if u = "" then none else some u
    | none => none
  | none => none

/-- generateFeed.py lines 77-94: the standard entry of an eligible record. -/
def stdItem (ep : Episode) (latest orig : DT) : FeedItem :=
  { title := ep.number ++ ": " ++ ep.title ++ repeatSuffix latest orig
    link := ep.episode_url
    guid := guidOf ep latest
    season := orig.y
    episodeNum := ep.number
    explicitStr := if ep.explicit then "true" else "false"
    description := descBody ep orig
    pubDateStr := format_rfc822 latest
    enclosureUrl := ep.download.getD ""
    durationStr := format_duration (totalMinutes ep)
    imageUrl := imageUrlOf ep }

/-- generateFeed.py lines 96-114: the sanitized (`"-C"` / `"(Clean)"`) entry. -/
def cleanItem (ep : Episode) (latest orig : DT) : FeedItem :=
  { stdItem ep latest orig with
    title := ep.number ++ ": " ++ ep.title ++ repeatSuffix latest orig ++ " (Clean)"
    guid := guidOf ep latest ++ "-C"
    explicitStr := "clean"
    enclosureUrl := ep.download_clean.getD "" }

/-- generateFeed.py lines 58-114: the 0, 1 or 2 feed entries produced by one
episode record (`none` models an uncaught date `ValueError`, which aborts the
whole render). -/
def itemsFor (ep : Episode) : Option (List FeedItem) :=
  if truthyS ep.download = false then some []
  else
    match latestPub ep, gfParse ep.original_air_date with
    | some latest, some orig =>
      some (stdItem ep latest orig ::
        (if truthyS ep.download_clean then [cleanItem ep latest orig] else []))
    | _, _ => none

/-- generateFeed.py main loop, before the final sort: the concatenated entry
lists of all records. -/
def feedItems (eps : List Episode) : Option (List FeedItem) :=
  (mapO itemsFor eps).map List.flatten

/-- generateFeed.py line 117 extracts the first `<pubDate>` element of each
serialized item with a regex and re-parses it; that element carries exactly
the `format_rfc822` string stored in the item (provided no episode smuggles a
pubDate element inside its description, in which case the sort key differs but
the multiset of emitted entries is unchanged). -/
def itemSortKey (it : FeedItem) : Option DT := gfParse it.pubDateStr

/-- generateFeed.py lines 117-134: all entries of the rendered document, sorted
by publish instant, newest first (`sort(..., reverse=True)` is stable). -/
def feedDoc (eps : List Episode) : Option (List FeedItem) :=
  match feedItems eps with
  | none => none
  | some its =>
    match mapO itemSortKey its with
    | none => none
    | some ks =>
      some ((isort (fun p q : FeedItem × DT => DT.leB q.2 p.2) (its.zip ks)).map Prod.fst)

/-! ## markdown.py -/

def startsWithCh : List Char → List Char → Bool
  | [], _ => true
  | _ :: _, [] => false
  | p :: ps, c :: cs => p = c && startsWithCh ps cs

/-- Characters before the first occurrence of `pat` (the whole list when `pat`
does not occur): Python `s.split(pat)[0]` for nonempty `pat`. -/
def takeBefore (pat : List Char) : List Char → List Char
  | [] => []
  | c :: cs => if startsWithCh pat (c :: cs) then [] else c :: takeBefore pat cs

/-- markdown.py `ep["original_air_date"].split(" +")[0]`. -/
def splitPlusHead (s : String) : String := ⟨takeBefore [' ', '+'] s.data⟩

/-- markdown.py lines 19-23 sort key:
`strptime(date.split(" +")[0], "%a, %d %b %Y %H:%M:%S")`. -/
def mdSortKey (ep : Episode) : Option DT := pRfcNoTz (splitPlusHead ep.original_air_date).data

/-- markdown.py lines 35-37 row air date:
`strptime(date.split(" +")[0], "%B %d, %Y").strftime("%Y-%m-%d")`. -/
def mdAirDate (ep : Episode) : Option String :=
  (pBdY (splitPlusHead ep.original_air_date).data).map fmtISO

/-- f-string interpolation of a possibly missing value. -/
def pyS : Option String → String
  | none => "None"
  | some s => s

/-- markdown.py lines 29-44: one table row. -/
def mdRow (ep : Episode) : Option String :=
  match mdAirDate ep with
  | none => none
  | some ad =>
    let cleanLink :=
      if truthyS ep.download_clean then "[dl](" ++ pyS ep.download_clean ++ ")" else "-"
    some ("[" ++ ep.number ++ ": " ++ ep.title ++ "](" ++ ep.episode_url ++ ")|" ++ ad ++
      "|[dl](" ++ pyS ep.download ++ ")|" ++ cleanLink ++ "|" ++
      joinSep "; " (ep.acts.map (fun a => a.title)) ++ "\n")

def mdHeader : String := "Title|Release Date|Download|Clean|Segments|\n---|:-:|:-:|:-:|-\n"

/-- markdown.py whole script: sort ascending by the RFC-822-shaped sort key,
then render one row per record; `none` models an uncaught `ValueError`
(no complete table is produced). -/
def renderMarkdown (eps : List Episode) : Option String :=
  match mapO (fun ep => (mdSortKey ep).map (fun k => (ep, k))) eps with
  | none => none
  | some keyed =>
    let sorted := (isort (fun p q : Episode × DT => DT.leB p.2 q.2) keyed).map Prod.fst
    match mapO mdRow sorted with
    | none => none
    | some rows => some (mdHeader ++ joinSep "" rows)

/-! ## normalize_dates.py -/

/-- normalize_dates.py lines 21-32, for one record: rewrite a parseable
`original_air_date` into RFC-822 form (keeping the text unchanged when
`parse_date` returns `None`), and replace `published_dates` by the
lexicographically sorted set of the RFC-822 forms of its parseable entries. -/
def ndNormalizeEp (ep : Episode) : Episode :=
  let ep1 :=
    if ep.original_air_date ≠ "" then
      match ndParse ep.original_air_date with
      | some dt => { ep with original_air_date := fmtRfc822 dt }
      | none => ep
    else ep
  let pubs := isort strLeB ((ep.published_dates.filterMap (fun d => (ndParse d).map fmtRfc822)).dedup)
  { ep1 with published_dates := pubs }

/-- normalize_dates.py whole pass over the collection. -/
def normalizeDates (eps : List Episode) : List Episode := eps.map ndNormalizeEp

/-! ## scrape.py -/

/-- One unit of the scraping loop of scrape.py lines 184-189: the feed entry's
URL together with what `scrape_episode` returns for it (`none` when the fetch
fails or the page has no download link).  `scrape_episode` stores the fetched
URL itself in the record (line 117). -/
structure ScrapeItem where
  url : String
  result : Option Episode
deriving DecidableEq

/-- scrape.py lines 184-189: append newly scraped records, skipping URLs
already present. -/
def mergeNew (eps : List Episode) (batch : List ScrapeItem) : List Episode :=
  batch.foldl (fun acc it =>
    if acc.any (fun ep => ep.episode_url == it.url) then acc
    else
      match it.result with
      | some r => acc ++ [{ r with episode_url := it.url }]
      | none => acc) eps

/-- One entry of the official RSS feed, as read by `update_published_dates`. -/
structure RssEntry where
  link : String
  published : Option String
  pubDate : Option String
deriving DecidableEq

/-- scrape.py line 131: `item.get("published") or item.get("pubDate")`. -/
def entryPubText (e : RssEntry) : Option String :=
  if truthyS e.published then e.published else e.pubDate

/-- scrape.py lines 134-138: parse the publish date, falling back to the first
25 characters; `none` models the uncaught error that aborts the run. -/
def backfillParse (s : String) : Option DT :=
  match scParse s with
  | some t => some t
  | none => scParse ⟨s.data.take 25⟩

/-- scrape.py lines 140-142: append `pub_str` to the `published_dates` of the
first record with the given URL, unless that string is already present. -/
def appendPub (url pubStr : String) : List Episode → List Episode
  | [] => []
  | ep :: rest =>
    if ep.episode_url = url then
      (if pubStr ∈ ep.published_dates then ep
       else { ep with published_dates := ep.published_dates ++ [pubStr] }) :: rest
    else ep :: appendPub url pubStr rest

/-- One iteration of the `update_published_dates` loop (lines 129-142). -/
def updStep (eps : List Episode) (e : RssEntry) : Option (List Episode) :=
  match entryPubText e with
  | none => some eps
  | some s =>
    if s = "" then some eps
    else
      match backfillParse s with
      | none => none
      | some dt => some (appendPub e.link (fmtISO dt) eps)

/-- scrape.py `update_published_dates` (lines 127-142). -/
def update_published_dates : List Episode → List RssEntry → Option (List Episode)
  | eps, [] => some eps
  | eps, e :: es =>
    match updStep eps e with
    | none => none
    | some eps1 => update_published_dates eps1 es

/-- scrape.py line 194: `sorted(ep["published_dates"], key=parse_any_date)`
for one record (`none` models the uncaught `ValueError` when a stored date
does not parse). -/
def sortPubDates (ep : Episode) : Option Episode :=
  match mapO scParse ep.published_dates with
  | none => none
  | some ks =>
    some { ep with published_dates := (isort (fun p q : String × DT => DT.leB p.2 q.2) (ep.published_dates.zip ks)).map Prod.fst }

/-- scrape.py `main` (lines 163-197), with the scraping results and the
official feed entries supplied as data: merge new records, backfill publish
dates, then re-sort each record's `published_dates` by parsed instant. -/
def scrapeMain (eps : List Episode) (batch : List ScrapeItem) (entries : List RssEntry) :
    Option (List Episode) :=
  match update_published_dates (mergeNew eps batch) entries with
  | none => none
  | some eps2 => mapO sortPubDates eps2

/-- Evaluation checks of the embedded parsers and renderers on fixtures,
including timezone conversion, calendar validation and the sort model. -/
theorem parser_fixture_checks :
    isort strLeB ["b", "c", "a"] = ["a", "b", "c"] ∧
    gfParse "2008-08-22" = some ⟨2008, 8, 22, 0, 0, 0⟩ ∧
    gfParse "Fri, 22 Aug 2008 00:00:00 +0000" = some ⟨2008, 8, 22, 0, 0, 0⟩ ∧
    gfParse "August 22, 2008" = some ⟨2008, 8, 22, 0, 0, 0⟩ ∧
    fmtRfc822 ⟨2008, 8, 22, 0, 0, 0⟩ = "Fri, 22 Aug 2008 00:00:00 +0000" ∧
    ndParse "Fri, 22 Aug 2008 00:00:00 +0000" = none ∧
    scParse "Fri, 22 Aug 2008 05:30:00 +0530" = some ⟨2008, 8, 22, 0, 0, 0⟩ ∧
    gfParse "Sat, 22 Aug 2008 01:30:00 +0200" = some ⟨2008, 8, 21, 23, 30, 0⟩ ∧
    gfParse "2008-02-30" = none ∧
    ndParse "Aug 22, 2008" = some ⟨2008, 8, 22, 0, 0, 0⟩ :=
  ⟨rfl, rfl, rfl, rfl, rfl, rfl, rfl, rfl, rfl, rfl⟩

/-! ## Concrete fixtures shared by the claim theorems -/

def epBase : Episode :=
  { title := "T", number := "1", episode_url := "u1",
    original_air_date := "2008-08-22", explicit := false, synopsis := "",
    download := some "a.mp3", download_clean := none, image := none,
    acts := [], published_dates := [] }

def epClean : Episode :=
  { epBase with episode_url := "u2", download_clean := some "c.mp3", explicit := true }

def epRep : Episode :=
  { epBase with episode_url := "u3", published_dates := ["2020-01-05"] }

def epWire : Episode :=
  { epBase with original_air_date := "Fri, 22 Aug 2008 00:00:00 +0000" }

def epLong : Episode :=
  { epBase with original_air_date := "August 22, 2008" }

def epBad : Episode :=
  { epBase with original_air_date := "not a date" }

def epAug : Episode :=
  { epBase with published_dates := ["August 22, 2008"] }

def entryWire : RssEntry :=
  { link := "u1", published := some "Fri, 22 Aug 2008 00:00:00 +0000", pubDate := none }

/-! ## Claim C1 -/

/-- The parsing order the specification asserts for every parsing function of
the program: RFC-822 first, then ISO, then the long month-name form.  This
definition follows the spec's words, for comparison with the three parser
definitions taken from the source. -/
def specOrderParse (s : String) : Option DT :=
  match pRfc s.data with
  | some t => some t
  | none =>
    match pIso s.data with
    | some t => some t
    | none => pBdY s.data

/-- C1, counterexample: on an RFC-822 input the claimed priority order (and
generateFeed's parser) succeeds via the first pattern, but normalize_dates'
`parse_date` recognises no RFC-822 form at all and returns `None`, so the
order is not the same in every parsing function. -/
theorem C1_counterexample :
    specOrderParse "Fri, 22 Aug 2008 00:00:00 +0000" = some ⟨2008, 8, 22, 0, 0, 0⟩ ∧
    gfParse "Fri, 22 Aug 2008 00:00:00 +0000" = some ⟨2008, 8, 22, 0, 0, 0⟩ ∧
    ndParse "Fri, 22 Aug 2008 00:00:00 +0000" = none := ⟨rfl, rfl, rfl⟩

/-- C1, amended: generateFeed's `parse_any_date` does try RFC-822 first and
return its result; but scrape's `parse_any_date` tries ISO first, and
normalize_dates' `parse_date` tries ISO first and has no RFC-822 pattern
(witnessed by its failure on a wire-form fixture). -/
theorem C1_order_amended :
    (∀ s t, pRfc (pyStrip s.data) = some t → gfParse s = some t) ∧
    (∀ s t, pIso s.data = some t → ndParse s = some t ∧ scParse s = some (truncMidnight t)) ∧
    ndParse "Fri, 22 Aug 2008 00:00:00 +0000" = none := by
  refine ⟨?_, ?_, rfl⟩
  · intro s t h
    simp only [gfParse, h]
  · intro s t h
    constructor
    · simp only [ndParse, h]
    · simp only [scParse, h]

/-- C1, witness for the amended theorem at concrete inputs. -/
theorem C1_order_amended_witness :
    gfParse "Fri, 22 Aug 2008 00:00:00 +0000" = some ⟨2008, 8, 22, 0, 0, 0⟩ ∧
    ndParse "2008-08-22" = some ⟨2008, 8, 22, 0, 0, 0⟩ := by
  constructor
  · exact C1_order_amended.1 "Fri, 22 Aug 2008 00:00:00 +0000" ⟨2008, 8, 22, 0, 0, 0⟩ (by rfl)
  · exact (C1_order_amended.2.1 "2008-08-22" ⟨2008, 8, 22, 0, 0, 0⟩ (by rfl)).1

/-! ## Claim C2 -/

/-- C2: for each of the three recognized date text forms, parsing with
generateFeed's `parse_any_date` and rendering with `format_rfc822` yields the
fixed RFC-822 string; in particular `"2008-08-22"` renders to
`"Fri, 22 Aug 2008 00:00:00 +0000"`. -/
theorem C2_wire_roundtrip :
    (gfParse "2008-08-22").map format_rfc822 = some "Fri, 22 Aug 2008 00:00:00 +0000" ∧
    (gfParse "August 22, 2008").map format_rfc822 = some "Fri, 22 Aug 2008 00:00:00 +0000" ∧
    (gfParse "Fri, 22 Aug 2008 00:00:00 +0000").map format_rfc822 =
      some "Fri, 22 Aug 2008 00:00:00 +0000" := ⟨rfl, rfl, rfl⟩

/-! ## Claim C6 -/

/-- C6: markdown.py parses `original_air_date` with two incompatible formats:
the sort key wants the RFC-822 shape (without offset) while the row renderer
wants `"%B %d, %Y"`.  On a wire-form date the sort key parses but the row
raises; on a long-month date the sort key raises; either way the script
aborts with `ValueError` and renders no row, for every nonempty collection. -/
theorem C6_markdown_incompatible_formats :
    mdSortKey epWire = some ⟨2008, 8, 22, 0, 0, 0⟩ ∧
    mdAirDate epWire = none ∧
    renderMarkdown [epWire] = none ∧
    mdAirDate epLong = some "2008-08-22" ∧
    mdSortKey epLong = none ∧
    renderMarkdown [epLong] = none ∧
    (renderMarkdown []).isSome = true := ⟨rfl, rfl, rfl, rfl, rfl, rfl, rfl⟩

/-! ## Claim C8 -/

/-- C8, counterexample: normalize_dates' `parse_date` returns `None` (no
error) on unrecognised text, and the script then keeps the unparsed
`original_air_date` silently in place. -/
theorem C8_counterexample :
    ndParse "not a date" = none ∧
    (ndNormalizeEp epBad).original_air_date = "not a date" ∧
    (ndNormalizeEp epBad).published_dates = [] := ⟨rfl, rfl, rfl⟩

/-- C8, amended: generateFeed's renderer does abort when the air date parses
under none of its patterns (no default is substituted), but normalize_dates
keeps unparsed `original_air_date` text silently in place. -/
theorem C8_error_handling_amended (ep : Episode) :
    (truthyS ep.download = true → gfParse ep.original_air_date = none → itemsFor ep = none) ∧
    (ndParse ep.original_air_date = none →
      (ndNormalizeEp ep).original_air_date = ep.original_air_date) := by
  constructor
  · intro h1 h2
    simp only [itemsFor, h1, latestPub, h2]
    rfl
  · intro h
    simp only [ndNormalizeEp, h]
    split
    · rfl
    · rfl

/-- C8, witness for the amended theorem at a concrete record. -/
theorem C8_error_handling_amended_witness :
    itemsFor epBad = none ∧ (ndNormalizeEp epBad).original_air_date = "not a date" :=
  ⟨(C8_error_handling_amended epBad).1 (by rfl) (by rfl),
   (C8_error_handling_amended epBad).2 (by rfl)⟩

/-! ## Claim C3 -/

/-- Helper: the entries of an eligible record with parsed dates. -/
theorem itemsFor_eq {ep : Episode} {latest orig : DT}
    (hd : truthyS ep.download = true) (hl : latestPub ep = some latest)
    (ho : gfParse ep.original_air_date = some orig) :
    itemsFor ep = some (stdItem ep latest orig ::
      (if truthyS ep.download_clean then [cleanItem ep latest orig] else [])) := by
  simp only [itemsFor, hd, hl, ho]
  rfl

/-- Helper: a record whose `download` is falsy yields no entries. -/
theorem itemsFor_of_falsy {ep : Episode} (hd : truthyS ep.download = false) :
    itemsFor ep = some [] := by
  simp only [itemsFor, hd]
  rfl

/-- C3: for every record with parseable dates, one standard entry is emitted
when the standard download URL is present, a second entry whose identifier is
the first one's with a `"-C"` suffix is added exactly when a sanitized URL is
also present, and a record lacking the standard download URL yields no
entries. -/
theorem C3_variant_expansion (ep : Episode) (items : List FeedItem)
    (h : itemsFor ep = some items) :
    (truthyS ep.download = false → items = []) ∧
    (truthyS ep.download = true → truthyS ep.download_clean = false →
      ∃ a, items = [a]) ∧
    (truthyS ep.download = true → truthyS ep.download_clean = true →
      ∃ a b, items = [a, b] ∧ b.guid = a.guid ++ "-C") := by
  refine ⟨?_, ?_, ?_⟩
  · intro hd
    rw [itemsFor_of_falsy hd] at h
    exact (Option.some_inj.mp h).symm
  · intro hd hc
    cases hl : latestPub ep with
    | none =>
      rw [itemsFor] at h
      simp only [hd, hl] at h
      simp at h
    | some latest =>
      cases ho : gfParse ep.original_air_date with
      | none =>
        rw [itemsFor] at h
        simp only [hd, hl, ho] at h
        simp at h
      | some orig =>
        rw [itemsFor_eq hd hl ho, hc] at h
        simp only [if_neg (by simp : ¬ (false = true))] at h
        exact ⟨stdItem ep latest orig, (Option.some_inj.mp h).symm⟩
  · intro hd hc
    cases hl : latestPub ep with
    | none =>
      rw [itemsFor] at h
      simp only [hd, hl] at h
      simp at h
    | some latest =>
      cases ho : gfParse ep.original_air_date with
      | none =>
        rw [itemsFor] at h
        simp only [hd, hl, ho] at h
        simp at h
      | some orig =>
        rw [itemsFor_eq hd hl ho, hc] at h
        simp only [if_pos rfl] at h
        exact ⟨stdItem ep latest orig, cleanItem ep latest orig,
          (Option.some_inj.mp h).symm, rfl⟩

/-- C3, witness at concrete records: two entries for the record with a clean
URL, differing by the `"-C"` suffix; one for the plain record; none for a
record without download URL. -/
theorem C3_variant_expansion_witness :
    ((itemsFor epClean).getD []).map FeedItem.guid = ["0001-20080822", "0001-20080822-C"] ∧
    ((itemsFor epBase).getD []).map FeedItem.guid = ["0001-20080822"] ∧
    (itemsFor { epBase with download := none }).getD [] = [] := by
  obtain ⟨a, b, hab, hg⟩ := (C3_variant_expansion epClean ((itemsFor epClean).getD [])
    (by rfl)).2.2 (by rfl) (by rfl)
  refine ⟨by rfl, by rfl, ?_⟩
  exact (C3_variant_expansion { epBase with download := none }
    ((itemsFor { epBase with download := none }).getD []) (by rfl)).1 (by rfl)

/-! ## Claim C5 -/

theorem ne_of_strlen {x y : String} (h : x.length ≠ y.length) : x ≠ y :=
  fun he => h (congrArg String.length he)

/-- C5: for every eligible record, each rendered entry title carries the
`" - Repeat"` suffix (before the optional `" (Clean)"` marker) if and only if
the year of the latest publish date differs from the year of the original air
date. -/
theorem C5_repeat_iff (ep : Episode) (items : List FeedItem) (latest orig : DT)
    (h : itemsFor ep = some items) (hl : latestPub ep = some latest)
    (ho : gfParse ep.original_air_date = some orig) :
    ∀ it ∈ items,
      ((it.title = ep.number ++ ": " ++ ep.title ++ " - Repeat" ∨
        it.title = ep.number ++ ": " ++ ep.title ++ " - Repeat (Clean)") ↔
       latest.y ≠ orig.y) := by
  have h9 : (" - Repeat" : String).length = 9 := rfl
  have h8 : (" (Clean)" : String).length = 8 := rfl
  have h17 : (" - Repeat (Clean)" : String).length = 17 := rfl
  by_cases hd : truthyS ep.download = false
  · rw [itemsFor_of_falsy hd] at h
    cases Option.some_inj.mp h
    intro it hit
    simp at hit
  · have hd' : truthyS ep.download = true := by
      revert hd; cases truthyS ep.download <;> simp
    rw [itemsFor_eq hd' hl ho] at h
    cases Option.some_inj.mp h
    intro it hit
    by_cases hy : latest.y = orig.y
    · have hsfx : repeatSuffix latest orig = "" := by
        simp [repeatSuffix, hy]
      constructor
      · intro hti
        exfalso
        rcases List.mem_cons.mp hit with hit | hit
        · rcases hti with hti | hti
          all_goals
            rw [hit] at hti
            simp only [stdItem, hsfx, String.append_empty] at hti
            revert hti
            apply ne_of_strlen
            simp only [String.length_append]
            omega
        · rcases (by
              by_cases hc : truthyS ep.download_clean = true
              · rw [hc] at hit; simpa using hit
              · rw [show truthyS ep.download_clean = false by
                    revert hc; cases truthyS ep.download_clean <;> simp] at hit
                simp at hit
            : it = cleanItem ep latest orig) with rfl
          rcases hti with hti | hti
          all_goals
            simp only [cleanItem, hsfx, String.append_empty] at hti
            revert hti
            apply ne_of_strlen
            simp only [String.length_append]
            omega
      · intro hy'
        exact absurd hy hy'
    · have hsfx : repeatSuffix latest orig = " - Repeat" := by
        simp [repeatSuffix, hy]
      constructor
      · intro _
        exact hy
      · intro _
        rcases List.mem_cons.mp hit with hit | hit
        · rw [hit]
          exact Or.inl (by simp only [stdItem, hsfx])
        · rcases (by
              by_cases hc : truthyS ep.download_clean = true
              · rw [hc] at hit; simpa using hit
              · rw [show truthyS ep.download_clean = false by
                    revert hc; cases truthyS ep.download_clean <;> simp] at hit
                simp at hit
            : it = cleanItem ep latest orig) with rfl
          refine Or.inr ?_
          simp only [cleanItem, hsfx]
          rw [String.append_assoc]
          rfl

/-- C5, witness: a 2008 air date with a 2020 publish date yields a
`" - Repeat"` title; the theorem applied at that record gives the year
inequality back from the rendered title. -/
theorem C5_repeat_iff_witness :
    ((itemsFor epRep).getD []).map FeedItem.title = ["1: T - Repeat"] ∧
    latestPub epRep = some ⟨2020, 1, 5, 0, 0, 0⟩ ∧
    (2020 : Int) ≠ 2008 := by
  refine ⟨by rfl, rfl, ?_⟩
  have happ := C5_repeat_iff epRep ((itemsFor epRep).getD []) ⟨2020, 1, 5, 0, 0, 0⟩
      ⟨2008, 8, 22, 0, 0, 0⟩ (by rfl) rfl rfl
  exact (happ (stdItem epRep ⟨2020, 1, 5, 0, 0, 0⟩ ⟨2008, 8, 22, 0, 0, 0⟩)
      (by decide)).mp (Or.inl (by rfl))

/-! ## Claim C7 -/

theorem pad2_length (n : Int) : (pad2 n).length = 2 := rfl

theorem pad4_length (n : Int) : (pad4 n).length = 4 := rfl

theorem weekdayAbbrOf_length (y m d : Int) : (weekdayAbbrOf y m d).length = 3 := by
  unfold weekdayAbbrOf
  have h : ((toDays y m d + 4) % 7).toNat < 7 := by omega
  set i := ((toDays y m d + 4) % 7).toNat with hi
  interval_cases i <;> rfl

/-- C7, counterexample: the backfill of scrape.py appends the ISO display form
`"2008-08-22"` to `published_dates`; that string matches no RFC-822 pattern
and cannot equal any output of the wire-form renderer, so not every date the
pipeline appends during backfill is in RFC-822 wire form. -/
theorem C7_counterexample :
    (scrapeMain [epAug] [] [entryWire]).map (fun l => l.map Episode.published_dates) =
      some [["August 22, 2008", "2008-08-22"]] ∧
    pRfc "2008-08-22".data = none ∧
    (∀ t : DT, fmtRfc822 t ≠ "2008-08-22") := by
  refine ⟨rfl, rfl, ?_⟩
  intro t
  apply ne_of_strlen
  have hw := weekdayAbbrOf_length t.y t.m t.d
  have c1 : (", " : String).length = 2 := rfl
  have c2 : (" " : String).length = 1 := rfl
  have c3 : (":" : String).length = 1 := rfl
  have c4 : (" +0000" : String).length = 6 := rfl
  have c5 : ("2008-08-22" : String).length = 10 := rfl
  simp only [fmtRfc822, String.length_append, hw, pad2_length, pad4_length,
    c1, c2, c3, c4, c5]
  omega

/-- Backfill origin: every date string of a record after `appendPub` was
already in some record, or is the appended string. -/
theorem appendPub_mem {url p : String} {eps : List Episode} {ep2 : Episode}
    (h : ep2 ∈ appendPub url p eps) :
    ∀ s ∈ ep2.published_dates, (∃ ep1 ∈ eps, s ∈ ep1.published_dates) ∨ s = p := by
  induction eps with
  | nil => simp [appendPub] at h
  | cons ep rest ih =>
    rw [appendPub] at h
    by_cases hu : ep.episode_url = url
    · rw [if_pos hu] at h
      rcases List.mem_cons.mp h with h | h
      · by_cases hp : p ∈ ep.published_dates
        · rw [if_pos hp] at h
          intro s hs
          exact Or.inl ⟨ep, by simp, by rw [h] at hs; exact hs⟩
        · rw [if_neg hp] at h
          intro s hs
          rw [h] at hs
          simp only [List.mem_append, List.mem_singleton] at hs
          rcases hs with hs | hs
          · exact Or.inl ⟨ep, by simp, hs⟩
          · exact Or.inr hs
      · intro s hs
        exact Or.inl ⟨ep2, by simp [h], hs⟩
    · rw [if_neg hu] at h
      rcases List.mem_cons.mp h with h | h
      · intro s hs
        exact Or.inl ⟨ep2, by simp [h], hs⟩
      · intro s hs
        rcases ih h s hs with ⟨ep1, h1, h2⟩ | h1
        · exact Or.inl ⟨ep1, by simp [h1], h2⟩
        · exact Or.inr h1

/-- Origin of every published date after `update_published_dates`: it was
already present, or it is the ISO rendering of a parsed feed-entry date. -/
theorem upd_mem {eps res : List Episode} {entries : List RssEntry}
    (h : update_published_dates eps entries = some res) :
    ∀ ep2 ∈ res, ∀ s ∈ ep2.published_dates,
      (∃ ep1 ∈ eps, s ∈ ep1.published_dates) ∨
      (∃ e ∈ entries, ∃ ps t, entryPubText e = some ps ∧ backfillParse ps = some t ∧
        s = fmtISO t) := by
  induction entries generalizing eps with
  | nil =>
    rw [update_published_dates] at h
    cases h
    intro ep2 h2 s hs
    exact Or.inl ⟨ep2, h2, hs⟩
  | cons e es ih =>
    rw [update_published_dates] at h
    cases hstep : updStep eps e with
    | none => rw [hstep] at h; cases h
    | some eps1 =>
      rw [hstep] at h
      intro ep2 h2 s hs
      rcases ih h ep2 h2 s hs with ⟨ep1, h1, hmem⟩ | ⟨e', he', hrest⟩
      · cases hpt : entryPubText e with
        | none =>
          simp only [updStep, hpt] at hstep
          cases hstep
          exact Or.inl ⟨ep1, h1, hmem⟩
        | some ps =>
          simp only [updStep, hpt] at hstep
          by_cases hempty : ps = ""
          · rw [if_pos hempty] at hstep
            cases hstep
            exact Or.inl ⟨ep1, h1, hmem⟩
          · rw [if_neg hempty] at hstep
            cases hbf : backfillParse ps with
            | none => rw [hbf] at hstep; cases hstep
            | some t =>
              rw [hbf] at hstep
              cases hstep
              rcases appendPub_mem h1 s hmem with ⟨ep0, h0, hm0⟩ | hp
              · exact Or.inl ⟨ep0, h0, hm0⟩
              · exact Or.inr ⟨e, by simp, ps, t, hpt, hbf, hp⟩
      · exact Or.inr ⟨e', by simp [he'], hrest⟩

/-- C7, amended: every date the backfill appends is the ISO `%Y-%m-%d`
display form of the parsed feed-entry instant (not wire form), while every
normalized date stored by normalize_dates.py's published-dates pass is the
RFC-822 wire form of a parsed instant. -/
theorem C7_storage_forms_amended (eps res : List Episode) (entries : List RssEntry)
    (h : update_published_dates eps entries = some res) :
    (∀ ep2 ∈ res, ∀ s ∈ ep2.published_dates,
      (∃ ep1 ∈ eps, s ∈ ep1.published_dates) ∨
      (∃ e ∈ entries, ∃ ps t, entryPubText e = some ps ∧ backfillParse ps = some t ∧
        s = fmtISO t)) ∧
    (∀ ep, ∀ s ∈ (ndNormalizeEp ep).published_dates, ∃ t, s = fmtRfc822 t) := by
  refine ⟨upd_mem h, ?_⟩
  intro ep s hs
  have hs' : s ∈ isort strLeB
      ((ep.published_dates.filterMap (fun d => (ndParse d).map fmtRfc822)).dedup) := hs
  have hs1 := (isort_perm strLeB _).mem_iff.mp hs'
  have hs2 := List.mem_dedup.mp hs1
  rcases List.mem_filterMap.mp hs2 with ⟨d, _, hd⟩
  rcases Option.map_eq_some'.mp hd with ⟨t, _, hfmt⟩
  exact ⟨t, hfmt.symm⟩

/-- C7, witness for the amended theorem at a concrete record. -/
theorem C7_storage_forms_amended_witness :
    ("Fri, 22 Aug 2008 00:00:00 +0000" : String) = fmtRfc822 ⟨2008, 8, 22, 0, 0, 0⟩ ∧
    (ndNormalizeEp epAug).published_dates = ["Fri, 22 Aug 2008 00:00:00 +0000"] := by
  obtain ⟨t, ht⟩ := (C7_storage_forms_amended [epAug] [epAug] [] rfl).2 epAug
    "Fri, 22 Aug 2008 00:00:00 +0000" (by decide)
  exact ⟨by rfl, by rfl⟩

/-! ## Claim C10 -/

/-- C10, counterexample: the backfill dedup compares strings, so after one
merge/backfill pass a record holds both `"August 22, 2008"` (scraped) and
`"2008-08-22"` (backfilled) - two textually distinct entries denoting the
same instant. -/
theorem C10_counterexample :
    (scrapeMain [epAug] [] [entryWire]).map (fun l => l.map Episode.published_dates) =
      some [["August 22, 2008", "2008-08-22"]] ∧
    scParse "August 22, 2008" = some ⟨2008, 8, 22, 0, 0, 0⟩ ∧
    scParse "2008-08-22" = some ⟨2008, 8, 22, 0, 0, 0⟩ ∧
    ("August 22, 2008" : String) ≠ "2008-08-22" :=
  ⟨rfl, rfl, rfl, by decide⟩

theorem forall₂_mem_right {R : α → β → Prop} {l1 : List α} {l2 : List β}
    (h : List.Forall₂ R l1 l2) {b : β} (hb : b ∈ l2) : ∃ a ∈ l1, R a b := by
  induction h with
  | nil => simp at hb
  | cons hr _ ih =>
    rcases List.mem_cons.mp hb with hb | hb
    · exact ⟨_, by simp, hb ▸ hr⟩
    · rcases ih hb with ⟨a, ha, hab⟩
      exact ⟨a, by simp [ha], hab⟩

/-- C10, amended: after every successful merge/backfill pass each record's
`published_dates` parses throughout and is ordered ascending by parsed
instant; but textually distinct entries may denote the same instant (the
dedup is by string, per the counterexample). -/
theorem C10_sorted_amended (eps : List Episode) (batch : List ScrapeItem)
    (entries : List RssEntry) (res : List Episode)
    (h : scrapeMain eps batch entries = some res) :
    ∀ ep ∈ res, ∃ ks, mapO scParse ep.published_dates = some ks ∧
      ks.Pairwise (fun a b => DT.leB a b = true) := by
  rw [scrapeMain] at h
  cases hupd : update_published_dates (mergeNew eps batch) entries with
  | none => rw [hupd] at h; cases h
  | some eps2 =>
    rw [hupd] at h
    intro ep hep
    rcases forall₂_mem_right (mapO_eq_some_iff.mp h) hep with ⟨e, _, hsort⟩
    rw [sortPubDates] at hsort
    cases hks : mapO scParse e.published_dates with
    | none => rw [hks] at hsort; cases hsort
    | some ks0 =>
      rw [hks] at hsort
      cases hsort
      refine ⟨(isort (fun p q : String × DT => DT.leB p.2 q.2)
        (e.published_dates.zip ks0)).map Prod.snd, ?_, ?_⟩
      · apply mapO_map_fst
        intro p hp
        exact zip_forall_of_mapO hks p ((isort_perm _ _).mem_iff.mp hp)
      · have hp := @isort_pairwise (String × DT) (fun p q => DT.leB p.2 q.2)
          (fun a b c h1 h2 => DT.leB_trans h1 h2)
          (fun a b hf => DT.leB_total _ _ hf)
          (e.published_dates.zip ks0)
        exact hp.map _ (fun a b hab => hab)

/-- C10, witness: the amended theorem applied to the counterexample run pins
the parsed keys of the resulting record and their ordering. -/
theorem C10_sorted_amended_witness :
    List.Pairwise (fun a b => DT.leB a b = true)
      [(⟨2008, 8, 22, 0, 0, 0⟩ : DT), ⟨2008, 8, 22, 0, 0, 0⟩] := by
  obtain ⟨ks, h1, h2⟩ := C10_sorted_amended [epAug] [] [entryWire]
    [{ epAug with published_dates := ["August 22, 2008", "2008-08-22"] }] (by rfl)
    { epAug with published_dates := ["August 22, 2008", "2008-08-22"] } (by simp)
  have hks : ks = [(⟨2008, 8, 22, 0, 0, 0⟩ : DT), ⟨2008, 8, 22, 0, 0, 0⟩] :=
    (Option.some_inj.mp ((by rfl :
      mapO scParse (Episode.published_dates { epAug with
        published_dates := ["August 22, 2008", "2008-08-22"] }) =
      some [(⟨2008, 8, 22, 0, 0, 0⟩ : DT), ⟨2008, 8, 22, 0, 0, 0⟩]).symm.trans h1)).symm
  exact hks ▸ h2

/-! ## Claim C4 -/

/-- Same record as `epBase` under a different URL: distinct `episode_url`,
same number and dates. -/
def epDupUrl : Episode := { epBase with episode_url := "uX" }

/-- Eligible record with a different number. -/
def epNum2 : Episode := { epBase with number := "2", episode_url := "u5" }

/-- C4, counterexample: two records with pairwise distinct `episode_url` but
the same number and latest date produce two identical identifiers in one
rendered document. -/
theorem C4_counterexample :
    epBase.episode_url ≠ epDupUrl.episode_url ∧
    (feedDoc [epBase, epDupUrl]).map (fun l => l.map FeedItem.guid) =
      some ["0001-20080822", "0001-20080822"] ∧
    ¬ (["0001-20080822", "0001-20080822"] : List String).Nodup :=
  ⟨by decide, rfl, by decide⟩

theorem string_ext {s t : String} (h : s.data = t.data) : s = t := by
  cases s; cases t; exact congrArg String.mk h

theorem fmtYYYYMMDD_length (t : DT) : (fmtYYYYMMDD t).length = 8 := by
  simp [fmtYYYYMMDD, String.length_append, pad4_length, pad2_length]

theorem fmtYYYYMMDD_data_length (t : DT) : (fmtYYYYMMDD t).data.length = 8 :=
  fmtYYYYMMDD_length t

/-- The identifier key pair of a record: zero-padded number and the `%Y%m%d`
rendering of the latest publish date (the two pieces the identifier is made
of). -/
def epKey (ep : Episode) : Option (String × String) :=
  (latestPub ep).map (fun latest => (zfill 4 ep.number, fmtYYYYMMDD latest))

theorem guidOf_inj {ep ep' : Episode} {l l' : DT}
    (h : guidOf ep l = guidOf ep' l') :
    zfill 4 ep.number = zfill 4 ep'.number ∧ fmtYYYYMMDD l = fmtYYYYMMDD l' := by
  have hd := congrArg String.data h
  simp only [guidOf, String.data_append] at hd
  have hlen : (fmtYYYYMMDD l).data.length = (fmtYYYYMMDD l').data.length := by
    rw [fmtYYYYMMDD_data_length, fmtYYYYMMDD_data_length]
  rcases List.append_inj' hd hlen with ⟨h1, h2⟩
  rcases List.append_inj' h1 rfl with ⟨h3, _⟩
  exact ⟨string_ext h3, string_ext h2⟩

theorem lastCh_append (a b : String) (hb : b.data ≠ []) :
    (a ++ b).data.getLast? = b.data.getLast? := by
  rw [String.data_append]
  exact List.getLast?_append_of_ne_nil _ hb

theorem pad2_data (n : Int) :
    (pad2 n).data = [digitChar ((n.toNat / 10) % 10), digitChar (n.toNat % 10)] := rfl

theorem fmtYYYYMMDD_last (t : DT) :
    (fmtYYYYMMDD t).data.getLast? = some (digitChar (t.d.toNat % 10)) := by
  show ((pad4 t.y ++ pad2 t.m) ++ pad2 t.d).data.getLast? = _
  rw [lastCh_append _ _ (by rw [pad2_data]; simp)]
  rw [pad2_data]
  rfl

theorem digitChar_ne_C {k : Nat} (hk : k < 10) : digitChar k ≠ 'C' := by
  interval_cases k <;> decide

theorem guid_ne_clean (ep ep' : Episode) (l l' : DT) :
    guidOf ep l ≠ guidOf ep' l' ++ "-C" := by
  intro h
  have hd := congrArg (fun s : String => s.data.getLast?) h
  simp only at hd
  rw [show guidOf ep l = (zfill 4 ep.number ++ "-") ++ fmtYYYYMMDD l from rfl] at hd
  rw [lastCh_append _ _ (by
    intro hc
    have := congrArg List.length hc
    rw [fmtYYYYMMDD_data_length] at this
    simp at this)] at hd
  rw [fmtYYYYMMDD_last] at hd
  rw [lastCh_append _ "-C" (by simp [show ("-C" : String).data = ['-', 'C'] from rfl])] at hd
  have hC : (("-C" : String).data.getLast?) = some 'C' := rfl
  rw [hC] at hd
  exact digitChar_ne_C (by omega) (Option.some_inj.mp hd)

theorem clean_cancel {g g' : String} (h : g ++ "-C" = g' ++ "-C") : g = g' := by
  have hd := congrArg String.data h
  simp only [String.data_append] at hd
  exact string_ext (List.append_inj' hd rfl).1

/-- The identifier of every entry a record emits, in terms of the record's
key pair. -/
theorem guid_mem_itemsFor {ep : Episode} {items : List FeedItem} {g : String}
    (h : itemsFor ep = some items) (hg : g ∈ items.map FeedItem.guid) :
    ∃ latest, latestPub ep = some latest ∧ truthyS ep.download = true ∧
      (g = guidOf ep latest ∨ g = guidOf ep latest ++ "-C") := by
  by_cases hd : truthyS ep.download = true
  · cases hl : latestPub ep with
    | none => rw [itemsFor] at h; simp only [hd, hl] at h; simp at h
    | some latest =>
      cases ho : gfParse ep.original_air_date with
      | none => rw [itemsFor] at h; simp only [hd, hl, ho] at h; simp at h
      | some orig =>
        rw [itemsFor_eq hd hl ho] at h
        cases Option.some_inj.mp h
        refine ⟨latest, by first | exact hl | rfl, hd, ?_⟩
        by_cases hc : truthyS ep.download_clean = true
        · rw [hc] at hg
          simp only [if_pos rfl, List.map_cons, List.map_nil] at hg
          rcases List.mem_cons.mp hg with hg | hg
          · exact Or.inl (hg.trans rfl)
          · rcases List.mem_singleton.mp hg with rfl
            exact Or.inr (by rfl)
        · rw [show truthyS ep.download_clean = false by
              revert hc; cases truthyS ep.download_clean <;> simp] at hg
          simp only [if_neg (by simp : ¬ (false = true)), List.map_cons, List.map_nil] at hg
          rcases List.mem_singleton.mp hg with rfl
          exact Or.inl (by rfl)
  · have hd' : truthyS ep.download = false := by
      revert hd; cases truthyS ep.download <;> simp
    rw [itemsFor_of_falsy hd'] at h
    cases Option.some_inj.mp h
    simp at hg

/-- Identifiers across all records are pairwise distinct when the key pairs of
the eligible records are. -/
theorem guids_nodup_aux {eps : List Episode} {ls : List (List FeedItem)}
    (hF : List.Forall₂ (fun ep l => itemsFor ep = some l) eps ls)
    (hkeys : (eps.filter (fun ep => truthyS ep.download)).Pairwise
      (fun a b => ∀ ka kb, epKey a = some ka → epKey b = some kb → ka ≠ kb)) :
    ((List.flatten ls).map FeedItem.guid).Nodup := by
  induction hF with
  | nil => simp
  | @cons ep l eps' ls' hfl hrest ih =>
    rw [List.flatten_cons, List.map_append, List.nodup_append]
    have hfilter := hkeys
    refine ⟨?_, ?_, ?_⟩
    · -- the identifiers of one record: at most [g, g ++ "-C"]
      by_cases hd : truthyS ep.download = true
      · cases hl : latestPub ep with
        | none => rw [itemsFor] at hfl; simp only [hd, hl] at hfl; simp at hfl
        | some latest =>
          cases ho : gfParse ep.original_air_date with
          | none => rw [itemsFor] at hfl; simp only [hd, hl, ho] at hfl; simp at hfl
          | some orig =>
            rw [itemsFor_eq hd hl ho] at hfl
            cases Option.some_inj.mp hfl
            by_cases hc : truthyS ep.download_clean = true
            · rw [hc]
              simp only [if_pos rfl, List.map_cons, List.map_nil]
              refine List.nodup_cons.mpr ⟨?_, List.nodup_singleton _⟩
              intro hmem
              rcases List.mem_singleton.mp hmem with heq
              revert heq
              show (stdItem ep latest orig).guid ≠ (cleanItem ep latest orig).guid
              apply ne_of_strlen
              have h2 : ("-C" : String).length = 2 := rfl
              show (guidOf ep latest).length ≠ (guidOf ep latest ++ "-C").length
              rw [String.length_append, h2]
              omega
            · rw [show truthyS ep.download_clean = false by
                  revert hc; cases truthyS ep.download_clean <;> simp]
              simp
      · have hd' : truthyS ep.download = false := by
          revert hd; cases truthyS ep.download <;> simp
        rw [itemsFor_of_falsy hd'] at hfl
        cases Option.some_inj.mp hfl
        simp
    · apply ih
      by_cases he : truthyS ep.download = true
      · rw [@List.filter_cons_of_pos Episode (fun e => truthyS e.download) ep eps' he] at hfilter
        exact (List.pairwise_cons.mp hfilter).2
      · rw [@List.filter_cons_of_neg Episode (fun e => truthyS e.download) ep eps' he] at hfilter
        exact hfilter
    · -- identifiers of this record never collide with a later record's
      intro g hg hg'
      rcases guid_mem_itemsFor hfl hg with ⟨latest, hl, he, hcase⟩
      rcases List.mem_map.mp hg' with ⟨it, hit, rfl⟩
      rcases List.mem_flatten.mp hit with ⟨l', hl', hitl⟩
      rcases forall₂_mem_right hrest hl' with ⟨ep', hep', hfl'⟩
      rcases guid_mem_itemsFor hfl' (List.mem_map.mpr ⟨it, hitl, rfl⟩)
        with ⟨latest', hl2, he', hcase'⟩
      rw [@List.filter_cons_of_pos Episode (fun e => truthyS e.download) ep eps' he] at hfilter
      have hR := (List.pairwise_cons.mp hfilter).1 ep'
        (List.mem_filter.mpr ⟨hep', he'⟩)
      have hne := hR (zfill 4 ep.number, fmtYYYYMMDD latest)
        (zfill 4 ep'.number, fmtYYYYMMDD latest')
        (by simp [epKey, hl]) (by simp [epKey, hl2])
      have hGne : guidOf ep latest ≠ guidOf ep' latest' := by
        intro hG
        rcases guidOf_inj hG with ⟨h1, h2⟩
        exact hne (by rw [h1, h2])
      rcases hcase with hcase | hcase <;> rcases hcase' with hcase' | hcase'
      · exact hGne (hcase.symm.trans hcase')
      · exact guid_ne_clean ep ep' latest latest' (hcase.symm.trans hcase')
      · exact guid_ne_clean ep' ep latest' latest (hcase'.symm.trans hcase)
      · exact hGne (clean_cancel (hcase.symm.trans hcase'))

/-- C4, amended: the identifiers of all entries in one rendered feed document
are pairwise distinct provided the key pairs (zero-padded number, latest date
as YYYYMMDD) of the eligible records are pairwise distinct; `episode_url`
uniqueness alone is not enough (see the counterexample). -/
theorem C4_guid_unique (eps : List Episode) (doc : List FeedItem)
    (h : feedDoc eps = some doc)
    (hkeys : (eps.filter (fun ep => truthyS ep.download)).Pairwise
      (fun a b => ∀ ka kb, epKey a = some ka → epKey b = some kb → ka ≠ kb)) :
    (doc.map FeedItem.guid).Nodup := by
  cases hits : feedItems eps with
  | none => simp only [feedDoc, hits] at h; cases h
  | some its =>
    cases hks : mapO itemSortKey its with
    | none => simp only [feedDoc, hits, hks] at h; cases h
    | some ks =>
      simp only [feedDoc, hits, hks, Option.some.injEq] at h
      subst h
      have hperm : List.Perm
          ((isort (fun p q : FeedItem × DT => DT.leB q.2 p.2) (its.zip ks)).map Prod.fst)
          its := by
        have h1 := (isort_perm (fun p q : FeedItem × DT => DT.leB q.2 p.2)
          (its.zip ks)).map Prod.fst
        rw [List.map_fst_zip its ks (le_of_eq (mapO_eq_some_iff.mp hks).length_eq)] at h1
        exact h1
      rw [(hperm.map FeedItem.guid).nodup_iff]
      cases hmo : mapO itemsFor eps with
      | none => rw [feedItems, hmo] at hits; cases hits
      | some ls =>
        rw [feedItems, hmo] at hits
        simp only [Option.map_some', Option.some.injEq] at hits
        cases hits
        exact guids_nodup_aux (mapO_eq_some_iff.mp hmo) hkeys

/-- C4, witness: two eligible records with distinct numbers render a document
with pairwise distinct identifiers. -/
theorem C4_guid_unique_witness :
    (((feedDoc [epBase, epNum2]).getD []).map FeedItem.guid).Nodup := by
  apply C4_guid_unique [epBase, epNum2] ((feedDoc [epBase, epNum2]).getD []) (by rfl)
  have hf : [epBase, epNum2].filter (fun ep => truthyS ep.download) = [epBase, epNum2] := rfl
  rw [hf]
  refine List.Pairwise.cons ?_ (List.pairwise_singleton _ _)
  intro b hb ka kb h1 h2
  rcases List.mem_singleton.mp hb with rfl
  rw [show epKey epBase = some ("0001", "20080822") from rfl] at h1
  rw [show epKey epNum2 = some ("0002", "20080822") from rfl] at h2
  cases Option.some_inj.mp h1
  cases Option.some_inj.mp h2
  decide

/-! ## Claim C9 -/

/-- The presence check of scrape.py line 186. -/
def urlPresent (eps : List Episode) (url : String) : Bool :=
  eps.any (fun ep => ep.episode_url == url)

theorem mergeNew_cons (eps : List Episode) (it : ScrapeItem) (rest : List ScrapeItem) :
    mergeNew eps (it :: rest) = mergeNew
      (if eps.any (fun ep => ep.episode_url == it.url) then eps
       else
         match it.result with
         | some r => eps ++ [{ r with episode_url := it.url }]
         | none => eps) rest := by
  rw [mergeNew, List.foldl_cons]
  rfl

theorem mergeNew_nil (eps : List Episode) : mergeNew eps [] = eps := rfl

theorem mergeNew_present_mono {batch : List ScrapeItem} {eps : List Episode} {url : String}
    (h : urlPresent eps url = true) : urlPresent (mergeNew eps batch) url = true := by
  induction batch generalizing eps with
  | nil => exact h
  | cons it rest ih =>
    rw [mergeNew_cons]
    apply ih
    by_cases hp : eps.any (fun ep => ep.episode_url == it.url) = true
    · rw [if_pos hp]; exact h
    · rw [if_neg hp]
      cases it.result with
      | some r =>
        show ((eps ++ [{ r with episode_url := it.url }]).any
          (fun ep => ep.episode_url == url)) = true
        rw [List.any_append]
        simp [urlPresent] at h
        simp [h]
      | none => exact h

theorem mergeNew_mem_present {batch : List ScrapeItem} {eps : List Episode} {it : ScrapeItem}
    (hit : it ∈ batch) (hr : it.result.isSome = true) :
    urlPresent (mergeNew eps batch) it.url = true := by
  induction batch generalizing eps with
  | nil => simp at hit
  | cons b rest ih =>
    rw [mergeNew_cons]
    rcases List.mem_cons.mp hit with rfl | hit
    · by_cases hp : eps.any (fun ep => ep.episode_url == it.url) = true
      · rw [if_pos hp]
        exact mergeNew_present_mono hp
      · rw [if_neg hp]
        rcases Option.isSome_iff_exists.mp hr with ⟨r, hr'⟩
        rw [hr']
        apply mergeNew_present_mono
        show ((eps ++ [{ r with episode_url := it.url }]).any
          (fun ep => ep.episode_url == it.url)) = true
        rw [List.any_append]
        simp
    · exact ih hit

theorem mergeNew_id {batch : List ScrapeItem} {eps : List Episode}
    (h : ∀ it ∈ batch, it.result.isSome = true → urlPresent eps it.url = true) :
    mergeNew eps batch = eps := by
  induction batch with
  | nil => rfl
  | cons b rest ih =>
    have hrest := fun it hit h2 => h it (List.mem_cons.mpr (Or.inr hit)) h2
    obtain ⟨burl, bres⟩ := b
    cases bres with
    | some r =>
      have hp : (eps.any fun ep => ep.episode_url == burl) = true :=
        h ⟨burl, some r⟩ (by simp) (by simp)
      rw [mergeNew_cons, if_pos hp]
      exact ih hrest
    | none =>
      by_cases hp : (eps.any fun ep => ep.episode_url == burl) = true
      · rw [mergeNew_cons, if_pos hp]
        exact ih hrest
      · rw [mergeNew_cons, if_neg hp]
        exact ih hrest

theorem appendPub_urls (url p : String) (eps : List Episode) :
    (appendPub url p eps).map Episode.episode_url = eps.map Episode.episode_url := by
  induction eps with
  | nil => rfl
  | cons e rest ih =>
    rw [appendPub]
    by_cases hu : e.episode_url = url
    · rw [if_pos hu]
      by_cases hp : p ∈ e.published_dates
      · rw [if_pos hp]
      · rw [if_neg hp]
        rfl
    · rw [if_neg hu]
      simp [ih]

theorem updStep_urls {eps eps1 : List Episode} {e : RssEntry}
    (h : updStep eps e = some eps1) :
    eps1.map Episode.episode_url = eps.map Episode.episode_url := by
  cases hpt : entryPubText e with
  | none => simp only [updStep, hpt] at h; cases h; rfl
  | some s =>
    simp only [updStep, hpt] at h
    by_cases hempty : s = ""
    · rw [if_pos hempty] at h; cases h; rfl
    · rw [if_neg hempty] at h
      cases hbf : backfillParse s with
      | none => rw [hbf] at h; cases h
      | some dt =>
        rw [hbf] at h
        cases h
        exact appendPub_urls e.link (fmtISO dt) eps

theorem upd_urls {es : List RssEntry} {eps res : List Episode}
    (h : update_published_dates eps es = some res) :
    res.map Episode.episode_url = eps.map Episode.episode_url := by
  induction es generalizing eps with
  | nil => rw [update_published_dates] at h; cases h; rfl
  | cons e es' ih =>
    rw [update_published_dates] at h
    cases hstep : updStep eps e with
    | none => rw [hstep] at h; cases h
    | some eps1 =>
      rw [hstep] at h
      exact (ih h).trans (updStep_urls hstep)

theorem sortPubDates_spec {e e' : Episode} (h : sortPubDates e = some e') :
    e'.episode_url = e.episode_url ∧
    (∀ x, x ∈ e.published_dates ↔ x ∈ e'.published_dates) := by
  rw [sortPubDates] at h
  cases hks : mapO scParse e.published_dates with
  | none => rw [hks] at h; cases h
  | some ks =>
    rw [hks] at h
    cases h
    refine ⟨rfl, fun x => ?_⟩
    show x ∈ e.published_dates ↔
      x ∈ (isort (fun p q : String × DT => DT.leB p.2 q.2) (e.published_dates.zip ks)).map Prod.fst
    rw [((isort_perm (fun p q : String × DT => DT.leB p.2 q.2)
      (e.published_dates.zip ks)).map Prod.fst).mem_iff]
    rw [List.map_fst_zip e.published_dates ks
      (le_of_eq (mapO_eq_some_iff.mp hks).length_eq)]

theorem sort_urls {eps2 res : List Episode} (h : mapO sortPubDates eps2 = some res) :
    res.map Episode.episode_url = eps2.map Episode.episode_url := by
  have hf := mapO_eq_some_iff.mp h
  clear h
  induction hf with
  | nil => rfl
  | cons hr _ ih => simp [ih, (sortPubDates_spec hr).1]

theorem urlPresent_congr {l1 l2 : List Episode}
    (h : l1.map Episode.episode_url = l2.map Episode.episode_url) (url : String) :
    urlPresent l1 url = urlPresent l2 url := by
  induction l1 generalizing l2 with
  | nil =>
    cases l2 with
    | nil => rfl
    | cons b bs => simp at h
  | cons a as ih =>
    cases l2 with
    | nil => simp at h
    | cons b bs =>
      simp only [List.map_cons, List.cons.injEq] at h
      have ha : urlPresent (a :: as) url = (a.episode_url == url || urlPresent as url) := rfl
      have hb : urlPresent (b :: bs) url = (b.episode_url == url || urlPresent bs url) := rfl
      rw [ha, hb, h.1, ih h.2]

/-- scrape.py line 140: the first record with the given URL. -/
def findUrl (eps : List Episode) (url : String) : Option Episode :=
  eps.find? (fun ep => ep.episode_url == url)

/-- A feed entry is settled in a collection when its parsed backfill date is
already recorded (textually) on the first record with its URL, if any. -/
def Settled (eps : List Episode) (e : RssEntry) : Prop :=
  ∀ s, entryPubText e = some s → s ≠ "" →
    ∃ dt, backfillParse s = some dt ∧
      ∀ ep, findUrl eps e.link = some ep → fmtISO dt ∈ ep.published_dates

theorem appendPub_findUrl_self {url p : String} {eps : List Episode} {ep : Episode}
    (h : findUrl (appendPub url p eps) url = some ep) : p ∈ ep.published_dates := by
  induction eps with
  | nil => simp [appendPub, findUrl] at h
  | cons e rest ih =>
    rw [appendPub] at h
    by_cases hu : e.episode_url = url
    · rw [if_pos hu] at h
      by_cases hp : p ∈ e.published_dates
      · rw [if_pos hp] at h
        rw [findUrl, List.find?_cons_of_pos _ (by simp [hu])] at h
        cases Option.some_inj.mp h
        exact hp
      · rw [if_neg hp] at h
        rw [findUrl, List.find?_cons_of_pos _ (by simp [hu])] at h
        cases Option.some_inj.mp h
        simp
    · rw [if_neg hu] at h
      rw [findUrl, List.find?_cons_of_neg _ (by simp [hu])] at h
      exact ih h

theorem appendPub_findUrl_mono {u p url : String} {eps : List Episode} {ep' : Episode}
    (h : findUrl (appendPub u p eps) url = some ep') :
    ∃ ep0, findUrl eps url = some ep0 ∧
      ∀ x ∈ ep0.published_dates, x ∈ ep'.published_dates := by
  induction eps with
  | nil => simp [appendPub, findUrl] at h
  | cons e rest ih =>
    rw [appendPub] at h
    by_cases hu : e.episode_url = u
    · rw [if_pos hu] at h
      by_cases hmatch : e.episode_url = url
      · by_cases hp : p ∈ e.published_dates
        · rw [if_pos hp] at h
          rw [findUrl, List.find?_cons_of_pos _ (by simp [hmatch])] at h
          cases Option.some_inj.mp h
          exact ⟨ep', by rw [findUrl, List.find?_cons_of_pos _ (by simp [hmatch])],
            fun x hx => hx⟩
        · rw [if_neg hp] at h
          rw [findUrl, List.find?_cons_of_pos _ (by simp [hmatch])] at h
          cases Option.some_inj.mp h
          exact ⟨e, by rw [findUrl, List.find?_cons_of_pos _ (by simp [hmatch])],
            fun x hx => by simp [hx]⟩
      · by_cases hp : p ∈ e.published_dates
        · rw [if_pos hp] at h
          rw [findUrl, List.find?_cons_of_neg _ (by simp [hmatch])] at h
          exact ⟨ep', by rw [findUrl, List.find?_cons_of_neg _ (by simp [hmatch])]; exact h,
            fun x hx => hx⟩
        · rw [if_neg hp] at h
          rw [findUrl, List.find?_cons_of_neg _ (by simp [hmatch])] at h
          exact ⟨ep', by rw [findUrl, List.find?_cons_of_neg _ (by simp [hmatch])]; exact h,
            fun x hx => hx⟩
    · rw [if_neg hu] at h
      by_cases hmatch : e.episode_url = url
      · rw [findUrl, List.find?_cons_of_pos _ (by simp [hmatch])] at h
        cases Option.some_inj.mp h
        exact ⟨ep', by rw [findUrl, List.find?_cons_of_pos _ (by simp [hmatch])],
          fun x hx => hx⟩
      · rw [findUrl, List.find?_cons_of_neg _ (by simp [hmatch])] at h
        rcases ih h with ⟨ep0, h0, hsub⟩
        exact ⟨ep0, by rw [findUrl, List.find?_cons_of_neg _ (by simp [hmatch])]; exact h0,
          hsub⟩

theorem appendPub_id {url p : String} {eps : List Episode}
    (h : ∀ ep, findUrl eps url = some ep → p ∈ ep.published_dates) :
    appendPub url p eps = eps := by
  induction eps with
  | nil => rfl
  | cons e rest ih =>
    rw [appendPub]
    by_cases hu : e.episode_url = url
    · rw [if_pos hu]
      have hfind : findUrl (e :: rest) url = some e := by
        rw [findUrl, List.find?_cons_of_pos _ (by simp [hu])]
      rw [if_pos (h e hfind)]
    · rw [if_neg hu]
      rw [ih (fun ep hep => h ep (by
        rw [findUrl, List.find?_cons_of_neg _ (by simp [hu])]
        exact hep))]

theorem updStep_settles {eps eps1 : List Episode} {e : RssEntry}
    (h : updStep eps e = some eps1) : Settled eps1 e := by
  intro s hs hne
  simp only [updStep, hs] at h
  rw [if_neg hne] at h
  cases hbf : backfillParse s with
  | none => rw [hbf] at h; cases h
  | some dt =>
    rw [hbf] at h
    cases h
    exact ⟨dt, rfl, fun ep hep => appendPub_findUrl_self hep⟩

theorem updStep_preserves {eps eps1 : List Episode} {e' e : RssEntry}
    (h : updStep eps e' = some eps1) (hs : Settled eps e) : Settled eps1 e := by
  intro s h1 h2
  rcases hs s h1 h2 with ⟨dt, hbf, hmem⟩
  refine ⟨dt, hbf, fun ep hep => ?_⟩
  cases hpt : entryPubText e' with
  | none =>
    simp only [updStep, hpt] at h
    cases h
    exact hmem ep hep
  | some s' =>
    simp only [updStep, hpt] at h
    by_cases hempty : s' = ""
    · rw [if_pos hempty] at h
      cases h
      exact hmem ep hep
    · rw [if_neg hempty] at h
      cases hbf' : backfillParse s' with
      | none => rw [hbf'] at h; cases h
      | some dt' =>
        rw [hbf'] at h
        cases h
        rcases appendPub_findUrl_mono hep with ⟨ep0, h0, hsub⟩
        exact hsub _ (hmem ep0 h0)

theorem upd_preserves {es : List RssEntry} {eps res : List Episode} {e : RssEntry}
    (h : update_published_dates eps es = some res) (hs : Settled eps e) :
    Settled res e := by
  induction es generalizing eps with
  | nil => rw [update_published_dates] at h; cases h; exact hs
  | cons e' es' ih =>
    rw [update_published_dates] at h
    cases hstep : updStep eps e' with
    | none => rw [hstep] at h; cases h
    | some eps1 =>
      rw [hstep] at h
      exact ih h (updStep_preserves hstep hs)

theorem upd_settles {es : List RssEntry} {eps res : List Episode}
    (h : update_published_dates eps es = some res) : ∀ e ∈ es, Settled res e := by
  induction es generalizing eps with
  | nil => simp
  | cons e' es' ih =>
    rw [update_published_dates] at h
    cases hstep : updStep eps e' with
    | none => rw [hstep] at h; cases h
    | some eps1 =>
      rw [hstep] at h
      intro e he
      rcases List.mem_cons.mp he with rfl | he
      · exact upd_preserves h (updStep_settles hstep)
      · exact ih h e he

theorem findUrl_sorted {eps2 res : List Episode} (h : mapO sortPubDates eps2 = some res)
    {url : String} {ep' : Episode} (hf : findUrl res url = some ep') :
    ∃ ep0, findUrl eps2 url = some ep0 ∧
      ∀ x ∈ ep0.published_dates, x ∈ ep'.published_dates := by
  have hF := mapO_eq_some_iff.mp h
  clear h
  induction hF with
  | nil => simp [findUrl] at hf
  | @cons e r eps2' res' hsort _ ih =>
    rcases sortPubDates_spec hsort with ⟨hurl, hmem⟩
    by_cases hmatch : r.episode_url = url
    · rw [findUrl, List.find?_cons_of_pos _ (by simp [hmatch])] at hf
      cases Option.some_inj.mp hf
      exact ⟨e, by rw [findUrl, List.find?_cons_of_pos _ (by simp [hurl ▸ hmatch])],
        fun x hx => (hmem x).mp hx⟩
    · rw [findUrl, List.find?_cons_of_neg _ (by simp [hmatch])] at hf
      rcases ih hf with ⟨ep0, h0, hsub⟩
      exact ⟨ep0, by rw [findUrl, List.find?_cons_of_neg _ (by simp [hurl ▸ hmatch])]; exact h0,
        hsub⟩

theorem settled_sorted {eps2 res : List Episode} (h : mapO sortPubDates eps2 = some res)
    {e : RssEntry} (hs : Settled eps2 e) : Settled res e := by
  intro s h1 h2
  rcases hs s h1 h2 with ⟨dt, hbf, hmem⟩
  refine ⟨dt, hbf, fun ep hep => ?_⟩
  rcases findUrl_sorted h hep with ⟨ep0, h0, hsub⟩
  exact hsub _ (hmem ep0 h0)

theorem upd_of_settled {es : List RssEntry} {res : List Episode}
    (h : ∀ e ∈ es, Settled res e) : update_published_dates res es = some res := by
  induction es with
  | nil => rfl
  | cons e es' ih =>
    rw [update_published_dates]
    have hstep : updStep res e = some res := by
      cases hpt : entryPubText e with
      | none => simp [updStep, hpt]
      | some s =>
        by_cases hempty : s = ""
        · simp [updStep, hpt, hempty]
        · rcases h e (by simp) s hpt hempty with ⟨dt, hbf, hmem⟩
          simp only [updStep, hpt]
          rw [if_neg hempty, hbf]
          show some (appendPub e.link (fmtISO dt) res) = some res
          rw [appendPub_id (fun ep hep => hmem ep hep)]
    rw [hstep]
    exact ih (fun e' he' => h e' (by simp [he']))

theorem mapO_id {f : α → Option α} {l : List α} (h : ∀ x ∈ l, f x = some x) :
    mapO f l = some l := by
  induction l with
  | nil => rfl
  | cons x xs ih =>
    simp only [mapO, h x (by simp), ih (fun y hy => h y (by simp [hy]))]

/-- Sorting with `isort` is idempotent on a record whose `published_dates`
already is the first projection of a sorted, fully parseable pair list. -/
theorem sortPubDates_of_pairs {r : Episode} {sp : List (String × DT)}
    (hr : r.published_dates = sp.map Prod.fst)
    (hforall : ∀ p ∈ sp, scParse p.1 = some p.2)
    (hpair : sp.Pairwise (fun a b : String × DT => DT.leB a.2 b.2 = true)) :
    sortPubDates r = some r := by
  have hmap : mapO scParse r.published_dates = some (sp.map Prod.snd) := by
    rw [hr]
    exact mapO_map_fst hforall
  have hfix : isort (fun p q : String × DT => DT.leB p.2 q.2) sp = sp :=
    isort_of_sorted hpair
  rw [sortPubDates, hmap]
  show some { r with published_dates := (isort (fun p q : String × DT => DT.leB p.2 q.2) (r.published_dates.zip (sp.map Prod.snd))).map Prod.fst } = some r
  rw [hr, zip_map_fst_snd_self, hfix, ← hr]

/-- Sorting a record's `published_dates` is idempotent (stable sort of a
sorted list). -/
theorem sortPubDates_fix {e r : Episode} (h : sortPubDates e = some r) :
    sortPubDates r = some r := by
  rw [sortPubDates] at h
  cases hks : mapO scParse e.published_dates with
  | none => rw [hks] at h; cases h
  | some ks =>
    rw [hks] at h
    cases h
    have hforall : ∀ p ∈ isort (fun p q : String × DT => DT.leB p.2 q.2)
        (e.published_dates.zip ks), scParse p.1 = some p.2 :=
      fun p hp => zip_forall_of_mapO hks p ((isort_perm _ _).mem_iff.mp hp)
    have hpair : (isort (fun p q : String × DT => DT.leB p.2 q.2)
        (e.published_dates.zip ks)).Pairwise
        (fun a b : String × DT => DT.leB a.2 b.2 = true) :=
      @isort_pairwise (String × DT) (fun p q => DT.leB p.2 q.2)
        (fun a b c h1 h2 => DT.leB_trans h1 h2)
        (fun a b hf => DT.leB_total _ _ hf) (e.published_dates.zip ks)
    exact @sortPubDates_of_pairs _
      (isort (fun p q : String × DT => DT.leB p.2 q.2) (e.published_dates.zip ks))
      rfl hforall hpair

/-- C9: applying the scrape merge (skip-if-present by URL, publish-date
backfill, then per-record re-sort) twice with the same batch and feed entries
yields exactly the collection of applying it once. -/
theorem C9_merge_idempotent (eps : List Episode) (batch : List ScrapeItem)
    (entries : List RssEntry) (res : List Episode)
    (h : scrapeMain eps batch entries = some res) :
    scrapeMain res batch entries = some res := by
  rw [scrapeMain] at h
  cases h2 : update_published_dates (mergeNew eps batch) entries with
  | none => rw [h2] at h; cases h
  | some eps2 =>
    rw [h2] at h
    have hu1 : eps2.map Episode.episode_url = (mergeNew eps batch).map Episode.episode_url :=
      upd_urls h2
    have hu2 : res.map Episode.episode_url = eps2.map Episode.episode_url := sort_urls h
    have hA : mergeNew res batch = res := by
      apply mergeNew_id
      intro it hit hr
      rw [urlPresent_congr (hu2.trans hu1) it.url]
      exact mergeNew_mem_present hit hr
    have hB : update_published_dates res entries = some res :=
      upd_of_settled (fun e he => settled_sorted h (upd_settles h2 e he))
    have hC : mapO sortPubDates res = some res := by
      apply mapO_id
      intro r hr
      rcases forall₂_mem_right (mapO_eq_some_iff.mp h) hr with ⟨e, _, hsort⟩
      exact sortPubDates_fix hsort
    rw [scrapeMain, hA, hB]
    exact hC

/-- Record shapes after the witness run of the merge. -/
def epAugRes : Episode := { epAug with published_dates := ["August 22, 2008", "2008-08-22"] }

def epU9 : Episode := { epBase with episode_url := "u9" }

/-- C9, witness: one concrete merge run (a new scraped record plus one
backfill entry), then the theorem applied to its result. -/
theorem C9_merge_idempotent_witness :
    scrapeMain [epAug] [⟨"u9", some epBase⟩] [entryWire] = some [epAugRes, epU9] ∧
    scrapeMain [epAugRes, epU9] [⟨"u9", some epBase⟩] [entryWire] = some [epAugRes, epU9] :=
  ⟨rfl, C9_merge_idempotent [epAug] [⟨"u9", some epBase⟩] [entryWire] [epAugRes, epU9] rfl⟩
